import Mathlib

/-!
Formal model of the embedded TrueType font-atlas generator (src/font.cpp of the
OSM viewer repository).  The C++ source is translated function by function into
executable Lean definitions: raw font memory becomes a byte function, pointer
arithmetic becomes explicit offsets, machine-integer wraparound is written out
with explicit `% 2^w`, and fatal `THROW_ERROR` calls become `Except` errors
classified by the error taxonomy of the specification.  Theorems at the end of
the file settle the specification claims against these definitions.
-/

namespace Font

/-- Raw font memory: a total map from byte index to stored byte.  Every read
goes through `% 256`, matching the fact that C++ memory holds `uint8_t`. -/
def Bytes : Type := Nat → Nat

/-- Build a byte buffer from a list (unspecified memory beyond the list is 0). -/
def bytesOf (l : List Nat) : Bytes := fun i => l.getD i 0

/-- One byte, as stored (`uint8_t`). -/
def readByte (d : Bytes) (i : Nat) : Nat := d i % 256

/-- C++ `readUint16`: `p[0]*256 + p[1]`. -/
def readUint16 (d : Bytes) (i : Nat) : Nat := readByte d i * 256 + readByte d (i+1)

/-- C++ `readInt16`: the same 16-bit value reinterpreted as a signed `int16_t`. -/
def readInt16 (d : Bytes) (i : Nat) : Int :=
  let v := readUint16 d i
  if v < 32768 then (v : Int) else (v : Int) - 65536

/-- C++ `readUint32`: `(p[0]<<24) + (p[1]<<16) + (p[2]<<8) + p[3]`. -/
def readUint32 (d : Bytes) (i : Nat) : Nat :=
  readByte d i * 16777216 + readByte d (i+1) * 65536 + readByte d (i+2) * 256 + readByte d (i+3)

/-- Reduction of a signed integer to C++ `uint32_t` (conversion wraps mod `2^32`). -/
def toUInt32 (z : Int) : Nat := (z % 4294967296).toNat

/-- A byte read reinterpreted as C++ `int8_t` (two's complement). -/
def int8OfByte (b : Nat) : Int :=
  if b % 256 < 128 then (b % 256 : Int) else (b % 256 : Int) - 256

/-- The error taxonomy of the specification (§7); each constructor corresponds
to one `THROW_ERROR` site of the source. -/
inductive FontError where
  | formatError
  | unsupportedEncodingError
  | unsupportedFormatError
  | unsupportedFeatureError
  | orderingError
deriving DecidableEq, Repr

/-- The four bytes stored at `loc`, compared against a 4-byte tag (`memcmp`). -/
def tagAt (d : Bytes) (loc : Nat) : List Nat :=
  [readByte d loc, readByte d (loc+1), readByte d (loc+2), readByte d (loc+3)]

def tag_cmap : List Nat := [99, 109, 97, 112]
def tag_loca : List Nat := [108, 111, 99, 97]
def tag_head : List Nat := [104, 101, 97, 100]
def tag_glyf : List Nat := [103, 108, 121, 102]
def tag_hhea : List Nat := [104, 104, 101, 97]
def tag_hmtx : List Nat := [104, 109, 116, 120]
def tag_maxp : List Nat := [109, 97, 120, 112]

/-- C++ `fintTableOffset` (name kept from the source): linear scan of the SFNT
table directory (count at offset 4, 16-byte records from offset 12) for the
first record whose 4-byte tag matches; returns the stored table offset, and 0
when the tag is absent. -/
def fintTableOffset (data : Bytes) (tag : List Nat) : Nat :=
  let numTables := readUint16 data 4
  match (List.range numTables).find? (fun i => tagAt data (12 + 16*i) == tag) with
  | some i => readUint32 data (12 + 16*i + 8)
  | none => 0

/-- Resolved table offsets (`TTFData` in the source; pointers become offsets
from the start of the font buffer). -/
structure TTFData where
  loca : Nat
  head : Nat
  glyf : Nat
  hhea : Nat
  hmtx : Nat
  cmap : Nat
  numGlyphs : Nat
  indexToLocFormat : Int
deriving DecidableEq, Repr

/-- The cmap encoding-record filter of `findAllTables`: platform Unicode with
any encoding except 14, or platform Microsoft with encoding 1 or 10. -/
def acceptSubtable (data : Bytes) (record : Nat) : Bool :=
  let platformID := readUint16 data record
  let platformSpecificID := readUint16 data (record + 2)
  if platformID = 0 then platformSpecificID ≠ 14
  else if platformID = 3 then platformSpecificID = 1 ∨ platformSpecificID = 10
  else false

/-- C++ `findAllTables`.  `base` is the numeric address of the font buffer
(the C++ `data` pointer, non-null in any run).  The source tests
`!cmap || !info.loca || ...` where `cmap` is the raw offset but `info.loca`
etc. are the pointers `data + offset`; the translation keeps exactly that:
the five pointer tests compare `base + offset` with 0. -/
def findAllTables (base : Nat) (data : Bytes) : Except FontError TTFData :=
  let cmap := fintTableOffset data tag_cmap
  let loca := fintTableOffset data tag_loca
  let head := fintTableOffset data tag_head
  let glyf := fintTableOffset data tag_glyf
  let hhea := fintTableOffset data tag_hhea
  let hmtx := fintTableOffset data tag_hmtx
  if cmap = 0 ∨ base + loca = 0 ∨ base + head = 0 ∨ base + glyf = 0
      ∨ base + hhea = 0 ∨ base + hmtx = 0 then
    .error .formatError
  else
    let t := fintTableOffset data tag_maxp
    let numGlyphs := if t ≠ 0 then readUint16 data (t + 4) else 0xffff
    let numberSubtables := readUint16 data (cmap + 2)
    match (List.range numberSubtables).find?
        (fun i => acceptSubtable data (cmap + 4 + 8*i)) with
    | some i =>
        .ok { loca, head, glyf, hhea, hmtx, numGlyphs,
              cmap := cmap + readUint32 data (cmap + 4 + 8*i + 4),
              indexToLocFormat := readInt16 data (head + 50) }
    | none => .error .unsupportedEncodingError

/-- The `while(searchRange >= 2)` loop of the cmap format-4 branch, with an
explicit structural fuel (the loop halves `searchRange`, so any fuel of at
least `searchRange` runs it to completion; see `searchLoopF_fuel`).
`endCode` is the current probe position (a byte offset into the buffer),
`reservedPad` the offset just past the `endCode` array. -/
def searchLoopF (data : Bytes) (charCode reservedPad : Nat) :
    Nat → Nat → Nat → Nat
  | 0, endCode, _ => endCode
  | fuel+1, endCode, searchRange =>
    if 2 ≤ searchRange then
      let search2 := endCode + searchRange
      let endCode' := if search2 < reservedPad ∧ readUint16 data search2 < charCode
                      then search2 else endCode
      searchLoopF data charCode reservedPad fuel endCode' (searchRange / 2)
    else endCode

/-- The format-4 search loop as run by the source: fuel `searchRange` is
always sufficient. -/
def searchLoop (data : Bytes) (charCode reservedPad endCode searchRange : Nat) : Nat :=
  searchLoopF data charCode reservedPad searchRange endCode searchRange

/-- The format-4 (two byte encoding) branch of `charCode2GlyphID`, factored
out verbatim; this branch never throws. -/
def lookupFormat4 (data : Bytes) (cmap charCode : Nat) : Nat :=
  let segCountX2 := readUint16 data (cmap + 6)
  let reservedPad := cmap + 14 + segCountX2
  let searchRange := readUint16 data (cmap + 8)
  let endCode := searchLoop data charCode reservedPad (cmap + 14 - 2) searchRange + 2
  if endCode = reservedPad then 0
  else
    let startCode := endCode + 2 + segCountX2
    let start := readUint16 data startCode
    if charCode < start then 0
    else
      let idRangeOffset := startCode + 2*segCountX2
      let offset := readUint16 data idRangeOffset
      if offset = 0 then
        -- `(charCode + readInt16(...)) & 0xffffu` in uint32 arithmetic
        toUInt32 ((charCode : Int) + readInt16 data (startCode + segCountX2)) % 65536
      else readUint16 data (idRangeOffset + offset + 2*(charCode - start))

/-- C++ `charCode2GlyphID`: code point to glyph ID, dispatching on the cmap
subtable format (0, 4 or 12; anything else throws). -/
def charCode2GlyphID (data : Bytes) (info : TTFData) (charCode : Nat) : Except FontError Nat :=
  let cmap := info.cmap
  let format := readUint16 data cmap
  if format = 0 then
    -- one byte encoding; note the source reads the glyph byte through an
    -- `int8_t` cast before converting the result to `uint32_t`
    if charCode > 0xff then .ok 0
    else .ok (toUInt32 (int8OfByte (readByte data (cmap + 6 + charCode))))
  else if format = 4 then .ok (lookupFormat4 data cmap charCode)
  else if format = 12 then
    let nGroups := readUint32 data (cmap + 12)
    let group := cmap + 16
    let i := (List.range 32).foldl (fun i k =>
      let add := 2 ^ (31 - k)
      let i2 := i + add
      if i2 < nGroups ∧ charCode < readUint32 data (group + i2 * 12) then i2 else i) 0
    if i + 1 = nGroups then .ok 0
    else
      let g := group + (i + 1) * 12
      let endCharCode := readUint32 data (g + 4)
      if endCharCode < charCode then .ok 0
      else
        let startCharCode := readUint32 data g
        let startGlyphCode := readUint32 data (g + 8)
        .ok (toUInt32 ((startGlyphCode : Int) + (charCode : Int) - (startCharCode : Int)))
  else .error .unsupportedFormatError

/-! ### Atlas packing (`GlyphRect`, `packRects`) and the orchestrator loops -/

/-- The fixed character range of font.h: `firstChar = 32`, `endChar = 127`. -/
def charCount : Nat := 95

/-- `GlyphRect` of the source: box size, atlas position (filled by the packer)
and the missing-glyph flag.  Fields the source leaves uninitialized are 0
here; they are never read on those paths. -/
structure GlyphRect where
  x : Int
  y : Int
  w : Int
  h : Int
  missing : Bool
deriving DecidableEq, Repr

def noRect : GlyphRect := { x := 0, y := 0, w := 0, h := 0, missing := false }

/-- `constexpr int padding = 1` and the fixed atlas width 256. -/
def padding : Int := 1

def atlasWidth : Int := 256

/-- One iteration of the packing loop of `packRects`: index `i` is the next
element of the sorted order; the state is `(rects, x, y, rowHeight)`. -/
def packStep (acc : List GlyphRect × Int × Int × Int) (i : Nat) :
    List GlyphRect × Int × Int × Int :=
  let (rects, x, y, rowHeight) := acc
  let r := rects.getD i noRect
  if r.missing then acc
  else
    let (x, y, rowHeight) :=
      if x + r.w + padding > atlasWidth then (padding, y + rowHeight + padding, (0 : Int))
      else (x, y, rowHeight)
    (rects.set i { r with x := x, y := y }, x + r.w + padding, y, max rowHeight r.h)

/-- C++ `packRects`: sorts the index array by ascending box height, then packs
shelf-style, writing each non-missing rectangle's position in place.  Returns
the updated rectangles and the atlas height `y + rowHeight + padding`. -/
def packRects (rects : List GlyphRect) : List GlyphRect × Int :=
  let order := List.insertionSort
    (fun i j => (rects.getD i noRect).h < (rects.getD j noRect).h)
    (List.range rects.length)
  let (rects, _, y, rowHeight) := order.foldl packStep (rects, padding, padding, 0)
  (rects, y + rowHeight + padding)

/-- Integer glyph bounding box (`Box` of the source). -/
structure Box where
  x0 : Int
  y0 : Int
  x1 : Int
  y1 : Int
deriving DecidableEq, Repr

/-- The loop body of `getGlyphRects`.  `g i` is the glyph ID the source
computes as `charCode2GlyphID(info, firstChar + i)` and `boxOf gid` the box
`getGlyphBox(info, gid, scale)`; both are per-font pure queries on the font
bytes.  `hasMissing` is the `has_missing_glyph` flag: the first unmapped
character is NOT marked missing (it becomes the rasterized notdef), every
later unmapped character is. -/
def getGlyphRectsGo (g : Nat → Nat) (boxOf : Nat → Box) :
    List Nat → Bool → List GlyphRect
  | [], _ => []
  | i :: rest, hasMissing =>
    let glyphID := g i
    if glyphID = 0 ∧ hasMissing then
      { noRect with missing := true } :: getGlyphRectsGo g boxOf rest hasMissing
    else
      let b := boxOf glyphID
      { x := 0, y := 0, w := b.x1 - b.x0, h := b.y1 - b.y0, missing := false }
        :: getGlyphRectsGo g boxOf rest (hasMissing || glyphID = 0)

/-- C++ `getGlyphRects` over the 95-character range. -/
def getGlyphRects (g : Nat → Nat) (boxOf : Nat → Box) : List GlyphRect :=
  getGlyphRectsGo g boxOf (List.range charCount) false

/-- `CharPosition` of font.h (the metrics-table entry filled by
`renderGlyphs`); `xadvance` is the float `scale * advanceWidth`, exact here. -/
structure CharPosition where
  x0 : Int
  y0 : Int
  x1 : Int
  y1 : Int
  xoff : Int
  yoff : Int
  xadvance : ℚ
deriving DecidableEq, Repr

def noPos : CharPosition :=
  { x0 := 0, y0 := 0, x1 := 0, y1 := 0, xoff := 0, yoff := 0, xadvance := 0 }

/-- The loop of C++ `renderGlyphs`.  `g` and `boxOf` are as in
`getGlyphRects`; `advOf gid` is the `uint16_t advanceWidth` read from `hmtx`
at the clamped index `min(gid, numOfLongHorMetrics-1)`.  The state carries the
filled positions (`atlas.charPositions`, written in index order), the
`missing_glyph` index (`none` for the initial `-1`), and the list of
`renderGlyph` calls made, each recorded as (character index, glyph ID). -/
def renderGlyphsGo (g : Nat → Nat) (boxOf : Nat → Box) (advOf : Nat → Nat)
    (scale : ℚ) (rects : List GlyphRect) :
    List Nat → List CharPosition → Option Nat → List (Nat × Nat) →
    Except FontError (List CharPosition × List (Nat × Nat))
  | [], ps, _, ev => .ok (ps, ev)
  | j :: rest, ps, mg, ev =>
    let r := rects.getD j noRect
    if r.missing then
      match mg with
      | none => .error .orderingError
      | some m => renderGlyphsGo g boxOf advOf scale rects rest
          (ps ++ [ps.getD m noPos]) (some m) ev
    else
      let glyphID := g j
      let b := boxOf glyphID
      let cp : CharPosition :=
        { x0 := r.x, y0 := r.y, x1 := r.x + r.w, y1 := r.y + r.h,
          xadvance := scale * (advOf glyphID : ℚ), xoff := b.x0, yoff := b.y0 }
      renderGlyphsGo g boxOf advOf scale rects rest (ps ++ [cp])
        (if glyphID = 0 then some j else mg) (ev ++ [(j, glyphID)])

/-- C++ `renderGlyphs`: sweeps the 95 rectangles in index order. -/
def renderGlyphs (g : Nat → Nat) (boxOf : Nat → Box) (advOf : Nat → Nat)
    (scale : ℚ) (rects : List GlyphRect) :
    Except FontError (List CharPosition × List (Nat × Nat)) :=
  renderGlyphsGo g boxOf advOf scale rects (List.range rects.length) [] none []

/-! ### Curve flattening (`tesselateQuad`) -/

/-- C++ `tesselateQuad`, with its `depth` argument and an explicit structural
fuel.  The source recursion stops as soon as `depth > 16`, so from an initial
depth `d` it makes at most `17 - d` nested calls; any fuel of at least
`(18 - d).toNat` therefore replays it exactly (see `tesselateQuadF_fuel`). -/
def tesselateQuadF (eps2 : ℚ) :
    Nat → List (ℚ × ℚ) → ℚ → ℚ → ℚ → ℚ → ℚ → ℚ → Int → List (ℚ × ℚ)
  | 0, points, _, _, _, _, _, _, _ => points
  | fuel+1, points, x0, y0, x1, y1, x2, y2, depth =>
    if depth > 16 then points
    else
      let mx := (x0 + 2*x1 + x2)/4
      let my := (y0 + 2*y1 + y2)/4
      let dx := (x0 + x2)/2 - mx
      let dy := (y0 + y2)/2 - my
      if dx*dx + dy*dy > eps2 then
        let points := tesselateQuadF eps2 fuel points x0 y0 ((x0+x1)/2) ((y0+y1)/2) mx my (depth+1)
        tesselateQuadF eps2 fuel points mx my ((x1+x2)/2) ((y1+y2)/2) x2 y2 (depth+1)
      else points ++ [(x2, y2)]

/-- C++ `tesselateQuad` as called by the source (the fuel `(18 - depth).toNat`
is always sufficient, and for `depth ≥ 17` both the source and the fuel-0 case
return `points` unchanged). -/
def tesselateQuad (points : List (ℚ × ℚ)) (x0 y0 x1 y1 x2 y2 : ℚ)
    (eps2 : ℚ) (depth : Int) : List (ℚ × ℚ) :=
  tesselateQuadF eps2 (18 - depth).toNat points x0 y0 x1 y1 x2 y2 depth

/-! ### Scanline rasterizer (`insidePixelArea`, `rasterizeEdge`, row sweep) -/

/-- A flattened contour point (`Point` of the source; float becomes ℚ). -/
structure Pt where
  x : ℚ
  y : ℚ
deriving DecidableEq, Repr

/-- `Edge` of the source. -/
structure Edge where
  sx : ℚ
  sy : ℚ
  ey : ℚ
  dx : ℚ
  dy : ℚ
  sign : ℚ
deriving DecidableEq, Repr

/-- C float-to-int conversion: truncation toward zero. -/
def truncF (q : ℚ) : Int := if 0 ≤ q then ⌊q⌋ else -⌊-q⌋

/-- C++ `insidePixelArea`. -/
def insidePixelArea (x : Int) (x0 y0 x1 y1 : ℚ) : ℚ :=
  (y1 - y0) * ((x : ℚ) + 1 - (x0 + x1)/2)

/-- A row buffer: the accumulation arrays `row` / `rowSum` as total maps
(an out-of-range `+=`, undefined behaviour in C++, lands on an index the
final readout never touches). -/
def Buf : Type := Int → ℚ

def zeroBuf : Buf := fun _ => 0

/-- `buf[i] += v`. -/
def bufAdd (f : Buf) (i : Int) (v : ℚ) : Buf := fun k => if k = i then f k + v else f k

/-- The `for(; x < x2; ++x)` run of full trapezoids in `rasterizeEdge`:
`row[x] += signed_area + step_tri; signed_area += step_rect`.  Returns the
updated row and the final `signed_area`. -/
def rasterizeMiddle (step_rect step_tri : ℚ) :
    Nat → Buf → Int → ℚ → Buf × ℚ
  | 0, row, _, sa => (row, sa)
  | n+1, row, x, sa =>
    rasterizeMiddle step_rect step_tri n (bufAdd row x (sa + step_tri)) (x + 1) (sa + step_rect)

/-- C++ `rasterizeEdge`: adds one edge's exact signed-area contribution for
the row `[rowTop, rowTop+1)` into `row` (local areas) and `rowSum` (net
vertical extents, written at the edge's starting column). -/
def rasterizeEdge (e : Edge) (rowTop : ℚ) (row rowSum : Buf) (width : Int) :
    Buf × Buf :=
  let rowBot := rowTop + 1
  if e.dx = 0 then
    if (width : ℚ) ≤ e.sx then (row, rowSum)
    else
      let x := truncF e.sx
      let y0 := max e.sy rowTop
      let y1 := min e.ey rowBot
      (bufAdd row x (e.sign * insidePixelArea x e.sx y0 e.sx y1),
       bufAdd rowSum x (e.sign * (y1 - y0)))
  else
    let (ext, eyt) :=
      if e.sy > rowTop then (e.sx, e.sy) else (e.sx + e.dx * (rowTop - e.sy), rowTop)
    let (exb, eyb) :=
      if e.ey < rowBot then (e.sx + e.dx * (e.ey - e.sy), e.ey)
      else (e.sx + e.dx * (rowBot - e.sy), rowBot)
    if truncF ext = truncF exb then
      let x := truncF ext
      if x < 0 ∨ width ≤ x then (row, rowSum)
      else
        (bufAdd row x (e.sign * insidePixelArea x ext eyt exb eyb),
         bufAdd rowSum x (e.sign * (eyb - eyt)))
    else
      let (ext2, exb2, dy) := if ext > exb then (exb, ext, -e.dy) else (ext, exb, e.dy)
      if exb2 < 0 ∨ (width : ℚ) ≤ ext2 then (row, rowSum)
      else
        let x1 := truncF ext2
        let step_rect := e.sign * dy
        let step_tri := step_rect / 2
        let x := x1 + 1
        let signed_area := step_rect * ((x1 : ℚ) + 1 - ext2)
        let (row, x, signed_area) :=
          if 0 ≤ x1 then (bufAdd row x1 (signed_area * ((x1 : ℚ) + 1 - ext2) / 2), x, signed_area)
          else if x < 0 then (row, 0, signed_area - x * step_rect)
          else (row, x, signed_area)
        let x2 := min (truncF exb2) width
        let (row, signed_area) := rasterizeMiddle step_rect step_tri (x2 - x).toNat row x signed_area
        if width ≤ x2 then (row, rowSum)
        else
          let ycut := eyt + dy * ((x2 : ℚ) - ext2)
          (bufAdd row x2 (signed_area + e.sign * insidePixelArea x2 x2 ycut exb2 eyb),
           bufAdd rowSum x2 (e.sign * (eyb - eyt)))

/-- The final per-pixel readout of a row:
`img[...] = clamp(int((row[i] + sum)*256.f), 0, 255)`.  The C cast truncates
toward zero (it does NOT round). -/
def clampPix (v : ℚ) : Int := max 0 (min 255 (truncF (v * 256)))

/-- The formula the specification text states for the same readout, with
`round` in place of the truncating cast (comparison definition). -/
def clampPixSpec (v : ℚ) : Int := max 0 (min 255 (round (v * 256)))

/-- The left-to-right readout loop of a finished row.  In the source
`rasterizeEdge` receives the pointer `rowSum + 1`, so the entry an edge wrote
at column `x` is read as `rowSum[x+1]`: the running sum at pixel `i` picks up
the entries written at columns `-1 … i-1`, hence the `rowSum (i - 1)` here. -/
def pixelRow (row rowSum : Buf) : Nat → Int → ℚ → List Int
  | 0, _, _ => []
  | n+1, i, sum =>
    let sum := sum + rowSum (i - 1)
    clampPix (row i + sum) :: pixelRow row rowSum n (i + 1) sum

/-- Edge construction of `renderGlyph` for one closed contour: consecutive
point pairs (wrapping around), horizontal segments skipped; `bx0` is
`box.x0`. -/
def buildEdges (scale : ℚ) (bx0 : Int) (contour : List Pt) : List Edge :=
  match contour.getLast? with
  | none => []
  | some lastP =>
    (List.zip (lastP :: contour) contour).foldr (fun pr acc =>
      let (pj, pk) := pr
      if pj.y = pk.y then acc
      else
        let dx := (pj.x - pk.x) / (pk.y - pj.y)
        let dy := if dx ≠ 0 then 1/dx else 0
        (if pj.y < pk.y then
          { dx, dy, sign := 1, sy := -pk.y * scale, ey := -pj.y * scale,
            sx := pk.x * scale - (bx0 : ℚ) }
         else
          { dx, dy, sign := -1, sy := -pj.y * scale, ey := -pk.y * scale,
            sx := pj.x * scale - (bx0 : ℚ) }) :: acc) []

/-- The row sweep of `renderGlyph`: per row, drop finished edges from the
active set (the source does this by swap-with-last, a permutation; edge
contributions are additive so the set is what matters), pull newly started
edges off the sorted stream, rasterize every active edge, and read the row
out.  Produces the glyph sub-image, one list of pixel values per row. -/
def sweepRows (glyphW : Nat) (boxY0 : Int) :
    Nat → Nat → List Edge → List Edge → List (List Int)
  | 0, _, _, _ => []
  | n+1, j, active, stream =>
    let rowTop : ℚ := (boxY0 : ℚ) + (j : ℚ)
    let rowBot := rowTop + 1
    let active := active.filter (fun ed => decide (rowTop < ed.ey))
    let newEdges := stream.takeWhile (fun ed => decide (ed.sy ≤ rowBot))
    let stream := stream.dropWhile (fun ed => decide (ed.sy ≤ rowBot))
    let active := active ++ newEdges
    let bufs := active.foldl (fun (b : Buf × Buf) ed =>
      rasterizeEdge ed rowTop b.1 b.2 (glyphW : Int)) (zeroBuf, zeroBuf)
    pixelRow bufs.1 bufs.2 glyphW 0 0 :: sweepRows glyphW boxY0 n (j+1) active stream

/-- C++ `renderGlyph` from the flattened contours on: builds the edge list,
sorts it by start-`y`, and sweeps the `glyphH` rows of the glyph box.
The output is the glyph's sub-image (the source writes it into the atlas at
`img + r.x + r.y*width`; pixel values are identical). -/
def renderGlyphPixels (contours : List (List Pt)) (scale : ℚ) (box : Box) :
    List (List Int) :=
  let glyphW := (box.x1 - box.x0).toNat
  let glyphH := (box.y1 - box.y0).toNat
  let edges := List.insertionSort (fun a b => a.sy < b.sy)
    (contours.foldl (fun acc c => acc ++ buildEdges scale box.x0 c) [])
  sweepRows glyphW box.y0 glyphH 0 [] edges

/-! ### Glyph outline decoding (`getGlyphVertices`) -/

/-- Two's-complement wraparound of a C++ `int16_t` store. -/
def wrap16 (z : Int) : Int := (z + 32768) % 65536 - 32768

/-- Arithmetic right shift by 14 (`>> 14` on an `int`): floor division. -/
def sar14 (z : Int) : Int := Int.fdiv z 16384

/-- Arithmetic right shift by 1 (`>> 1` on an `int`): floor division. -/
def sdiv2 (z : Int) : Int := Int.fdiv z 2

/-- C `abs` on `int`. -/
def iabs (z : Int) : Int := if z < 0 then -z else z

/-- C++ `getGlyfOffset`: `loca` lookup; `none` models the null pointer
(glyph ID out of range, unknown `indexToLocFormat`, or empty outline). -/
def getGlyfOffset (d : Bytes) (info : TTFData) (glyphID : Nat) : Option Nat :=
  if info.numGlyphs ≤ glyphID then none
  else
    let se : Option (Nat × Nat) :=
      if info.indexToLocFormat = 0 then
        some (readUint16 d (info.loca + 2*glyphID) * 2,
              readUint16 d (info.loca + 2*glyphID + 2) * 2)
      else if info.indexToLocFormat = 1 then
        some (readUint32 d (info.loca + 4*glyphID), readUint32 d (info.loca + 4*glyphID + 4))
      else none
    match se with
    | none => none
    | some (s, e) => if s = e then none else some (info.glyf + s)

/-- A decoded outline vertex (`Vertex` of the source, after the union's
`type` is written).  The setters store through `int16_t` fields, hence
`wrap16`.  For START/LINE vertices the source leaves `cx`,`cy` uninitialized
and never reads them before the composite transform; they are 0 here. -/
structure Vertex where
  x : Int
  y : Int
  cx : Int
  cy : Int
  type : Nat
deriving DecidableEq, Repr

def mkStart (x y : Int) : Vertex :=
  { x := wrap16 x, y := wrap16 y, cx := 0, cy := 0, type := 0 }

def mkLine (x y : Int) : Vertex :=
  { x := wrap16 x, y := wrap16 y, cx := 0, cy := 0, type := 1 }

def mkQuad (x y cx cy : Int) : Vertex :=
  { x := wrap16 x, y := wrap16 y, cx := wrap16 cx, cy := wrap16 cy, type := 2 }

/-- A raw glyph point before contour assembly: outline flag and absolute
coordinates. -/
structure RawPt where
  flag : Nat
  x : Int
  y : Int
deriving DecidableEq, Repr

def noRaw : RawPt := { flag := 0, x := 0, y := 0 }

/-- The flag-reading loop of the simple-glyph decoder (run-length `REPEAT`
handling).  Returns the `n` per-point flags and the cursor past the flag
data. -/
def readFlags (d : Bytes) : Nat → Nat → Nat → Nat → List Nat × Nat
  | 0, pos, _, _ => ([], pos)
  | k+1, pos, flagcount, flag =>
    if flagcount ≠ 0 then
      let (fs, p) := readFlags d k pos (flagcount - 1) flag
      (flag :: fs, p)
    else
      let flag := readByte d pos
      let (pos2, fc) := if flag &&& 8 ≠ 0 then (pos + 2, readByte d (pos+1)) else (pos + 1, 0)
      let (fs, p) := readFlags d k pos2 fc flag
      (flag :: fs, p)

/-- The delta-decoding loop for one coordinate axis (`shortMask`/`sameMask`
are `X_SHORT`/`X_SAME` resp. `Y_SHORT`/`Y_SAME`).  The accumulator is an
`int16_t`, so every step wraps. -/
def readCoords (d : Bytes) (shortMask sameMask : Nat) :
    List Nat → Nat → Int → List Int × Nat
  | [], pos, _ => ([], pos)
  | flag :: fs, pos, x =>
    let (x, pos) :=
      if flag &&& shortMask ≠ 0 then
        let dlt : Int := readByte d pos
        (wrap16 (x + (if flag &&& sameMask ≠ 0 then dlt else -dlt)), pos + 1)
      else if flag &&& sameMask = 0 then
        (wrap16 (x + readInt16 d pos), pos + 2)
      else (x, pos)
    let (xs, p) := readCoords d shortMask sameMask fs pos x
    (x :: xs, p)

/-- The interior-point loop of one contour (`for(++j; j <= endPt; ++j)`):
emits LINE/QUAD vertices, tracking the pending off-curve control point.
Returns the emitted vertices and the final `(j, lastOff, cx, cy)`. -/
def assemblePoints (pts : List RawPt) :
    Nat → Nat → Bool → Int → Int → List Vertex × (Nat × Bool × Int × Int)
  | 0, j, lastOff, cx, cy => ([], (j, lastOff, cx, cy))
  | k+1, j, lastOff, cx, cy =>
    let p := pts.getD j noRaw
    let x := p.x
    let y := p.y
    if p.flag &&& 1 ≠ 0 then
      let v := if lastOff then mkQuad x y cx cy else mkLine x y
      let (vs, st) := assemblePoints pts k (j+1) false cx cy
      (v :: vs, st)
    else
      let (vs, st) := assemblePoints pts k (j+1) true x y
      if lastOff then (mkQuad (sdiv2 (cx + x)) (sdiv2 (cy + y)) cx cy :: vs, st)
      else (vs, st)

/-- The per-contour loop of the simple-glyph decoder: start-vertex selection
(on-curve first point, following on-curve point, or implied midpoint), the
interior sweep, and contour closing. -/
def assembleContours (pts : List RawPt) : List Nat → Nat → List Vertex
  | [], _ => []
  | endPt :: rest, j =>
    let firstPt := pts.getD j noRaw
    let firstOn := firstPt.flag &&& 1 ≠ 0
    let (x0, y0, j2) :=
      if firstOn then (firstPt.x, firstPt.y, j)
      else
        let nxt := pts.getD (j+1) noRaw
        if nxt.flag &&& 1 ≠ 0 then (nxt.x, nxt.y, j+1)
        else (sdiv2 (firstPt.x + nxt.x), sdiv2 (firstPt.y + nxt.y), j)
    let (body, st) := assemblePoints pts (endPt + 1 - (j2 + 1)) (j2 + 1) false 0 0
    let (jEnd, lastOff, cx, cy) := st
    let closing : List Vertex :=
      if firstOn then
        [if lastOff then mkQuad x0 y0 cx cy else mkLine x0 y0]
      else
        (if lastOff then [mkQuad (sdiv2 (cx + firstPt.x)) (sdiv2 (cy + firstPt.y)) cx cy]
         else [])
          ++ [mkQuad x0 y0 firstPt.x firstPt.y]
    mkStart x0 y0 :: (body ++ closing) ++ assembleContours pts rest jEnd

/-- The simple-glyph branch of `getGlyphVertices` at glyf record offset `g`
with `nc = numberOfContours ≥ 0`.  The source decodes the raw points into
the tail of the vertex array it then assembles into the front; here the raw
points are a separate list with identical contents. -/
def simpleGlyph (d : Bytes) (g : Nat) (nc : Nat) : List Vertex :=
  let endPtsOff := g + 10
  let instructionLength := readUint16 d (endPtsOff + 2*nc)
  let data0 := endPtsOff + 2*nc + 2 + instructionLength
  let n := 1 + readUint16 d (endPtsOff + 2*nc - 2)
  let (flags, posX) := readFlags d n data0 0 0
  let (xs, posY) := readCoords d 2 16 flags posX 0
  let (ys, _) := readCoords d 4 32 flags posY 0
  let pts := (flags.zip (xs.zip ys)).map
    (fun fz => { flag := fz.1, x := fz.2.1, y := fz.2.2 : RawPt })
  let endPts := (List.range nc).map (fun i => readUint16 d (endPtsOff + 2*i))
  assembleContours pts endPts 0

/-- The composite transform: `x' = (a·x + c·y + e) >> 14`,
`y' = (b·x0 + d·y + f) >> 14` (old coordinates on the right-hand sides),
applied to `(x,y)` and to `(cx,cy)`, stored through `int16_t`. -/
def transformV (a b c d2 e f : Int) (v : Vertex) : Vertex :=
  { x := wrap16 (sar14 (a * v.x + c * v.y + e)),
    y := wrap16 (sar14 (b * v.x + d2 * v.y + f)),
    cx := wrap16 (sar14 (a * v.cx + c * v.cy + e)),
    cy := wrap16 (sar14 (b * v.cx + d2 * v.cy + f)),
    type := v.type }

/-- The component-record loop of the composite-glyph branch.  `decode` is the
recursive outline decoder for the referenced glyph ID; the fuel bounds the
number of records (the source's `while(true)` has no bound of its own). -/
def compoundGoF (dta : Bytes) (decode : Nat → Except FontError (List Vertex)) :
    Nat → Nat → Except FontError (List Vertex)
  | 0, _ => .ok []
  | cf+1, pos =>
    let flags := readUint16 dta pos
    let glyphIndex := readUint16 dta (pos + 2)
    let pos := pos + 4
    if flags &&& 2 = 0 then .error .unsupportedFeatureError
    else
      let (e, f, pos) :=
        if flags &&& 1 ≠ 0 then (readInt16 dta pos, readInt16 dta (pos + 2), pos + 4)
        else (int8OfByte (readByte dta pos), int8OfByte (readByte dta (pos + 1)), pos + 2)
      let (a, b, c, d2, pos) :=
        if flags &&& 8 ≠ 0 then
          (readInt16 dta pos, 0, 0, readInt16 dta pos, pos + 2)
        else if flags &&& 64 ≠ 0 then
          (readInt16 dta pos, 0, 0, readInt16 dta (pos + 2), pos + 4)
        else if flags &&& 128 ≠ 0 then
          (readInt16 dta pos, readInt16 dta (pos + 2), readInt16 dta (pos + 4),
           readInt16 dta (pos + 6), pos + 8)
        else ((16384 : Int), 0, 0, 16384, pos)
      let m := max (iabs a) (iabs b)
      let n := max (iabs c) (iabs d2)
      let m := if iabs (iabs a - iabs c) ≤ 8 then m * 2 else m
      let n := if iabs (iabs b - iabs d2) ≤ 8 then n * 2 else n
      let e := e * m
      let f := f * n
      match decode glyphIndex with
      | .error err => .error err
      | .ok comp =>
        let comp := comp.map (transformV a b c d2 e f)
        if flags &&& 32 = 0 then .ok comp
        else
          match compoundGoF dta decode cf pos with
          | .error err => .error err
          | .ok rest => .ok (comp ++ rest)

/-- C++ `getGlyphVertices` with an explicit recursion fuel: the source
recurses into composite components with no guard at all (spec §9 flags this),
so the fuel bounds both the component nesting depth and the record count;
every claim instantiates it large enough for the font at hand. -/
def getGlyphVerticesF (dta : Bytes) (info : TTFData) :
    Nat → Nat → Except FontError (List Vertex)
  | 0, _ => .ok []
  | fuel+1, glyphID =>
    match getGlyfOffset dta info glyphID with
    | none => .ok []
    | some g =>
      let nc := readInt16 dta g
      if 0 ≤ nc then .ok (simpleGlyph dta g nc.toNat)
      else compoundGoF dta (getGlyphVerticesF dta info fuel) (fuel + 1) (g + 10)

/-! ### Vocabulary for the specification claims, and concrete test data -/

/-- The rectangle of footprint `[x, x+w) × [y, y+h)` stays inside the
`[0, atlasWidth) × [0, height)` atlas. -/
def rectInAtlas (r : GlyphRect) (height : Int) : Prop :=
  0 ≤ r.x ∧ r.x + r.w ≤ atlasWidth ∧ 0 ≤ r.y ∧ r.y + r.h ≤ height

/-- Two rectangles are separated by at least `padding` pixels on some axis
(which also makes their footprints disjoint). -/
def rectDisjoint (a b : GlyphRect) : Prop :=
  a.x + a.w + padding ≤ b.x ∨ b.x + b.w + padding ≤ a.x ∨
  a.y + a.h + padding ≤ b.y ∨ b.y + b.h + padding ≤ a.y

/-- A glyph rectangle the amended packing claim accepts: a box that fits a
shelf of the fixed-width atlas together with its padding. -/
def GoodRect (r : GlyphRect) : Prop :=
  r.missing = false → 0 ≤ r.w ∧ r.w + 2*padding ≤ atlasWidth ∧ 0 ≤ r.h

/-- `i` is the first character index whose glyph ID is 0. -/
def IsFirstZero (g : Nat → Nat) (i : Nat) : Prop :=
  g i = 0 ∧ ∀ i2, i2 < i → g i2 ≠ 0

/-- The missing-flag pattern `getGlyphRects` produces: a character is marked
missing exactly when it is unmapped and a strictly earlier character is
unmapped too. -/
def FirstMissingScheme (g : Nat → Nat) (rects : List GlyphRect) : Prop :=
  ∀ j, j < rects.length →
    ((rects.getD j noRect).missing = true ↔ (g j = 0 ∧ ∃ i, i < j ∧ g i = 0))

def exceptOk {α : Type} (r : Except FontError α) : Bool :=
  match r with
  | .ok _ => true
  | .error _ => false

def okPositions (r : Except FontError (List CharPosition × List (Nat × Nat))) :
    List CharPosition :=
  match r with
  | .ok pe => pe.1
  | .error _ => []

def okEvents (r : Except FontError (List CharPosition × List (Nat × Nat))) :
    List (Nat × Nat) :=
  match r with
  | .ok pe => pe.2
  | .error _ => []

def okVerts (r : Except FontError (List Vertex)) : List Vertex :=
  match r with
  | .ok v => v
  | .error _ => []

def noVert : Vertex := { x := 0, y := 0, cx := 0, cy := 0, type := 0 }

/-- `endCode[i]` of a format-4 subtable at offset `cm`. -/
def endCodeAt (d : Bytes) (cm i : Nat) : Nat := readUint16 d (cm + 14 + 2*i)

/-- `startCode[i]` (the array begins right after the reserved pad). -/
def startCodeAt (d : Bytes) (cm sc i : Nat) : Nat := readUint16 d (cm + 16 + 2*sc + 2*i)

/-- `idDelta[i]`, signed. -/
def idDeltaAt (d : Bytes) (cm sc i : Nat) : Int := readInt16 d (cm + 16 + 4*sc + 2*i)

/-- The byte address of `idRangeOffset[i]`. -/
def idRangeOffsetAddr (cm sc i : Nat) : Nat := cm + 16 + 6*sc + 2*i

/-- `idRangeOffset[i]`. -/
def idRangeOffsetAt (d : Bytes) (cm sc i : Nat) : Nat :=
  readUint16 d (idRangeOffsetAddr cm sc i)

/-- Format-4 cmap with the single segment `[65,90]`, `idDelta = 0`,
`idRangeOffset = 0` (the specification's scenario). -/
def cmap4ex : Bytes :=
  bytesOf [0,4, 0,24, 0,0, 0,2, 0,2, 0,0, 0,0, 0,90, 0,0, 0,65, 0,0, 0,0]

/-- Table info whose cmap subtable sits at offset 0 of the buffer. -/
def infoAt0 : TTFData :=
  { loca := 0, head := 0, glyf := 0, hhea := 0, hmtx := 0,
    cmap := 0, numGlyphs := 10, indexToLocFormat := 0 }

/-- Format-0 cmap whose glyph-ID array stores the byte 200 at index 65. -/
def cmap0ex : Bytes := fun i => if i = 0 then 0 else if i = 6 + 65 then 200 else 0

/-- A font buffer whose table directory (1 record) contains only `cmap`
(pointing at a valid Unicode encoding record): `loca`, `head`, `glyf`,
`hhea`, `hmtx` are all absent. -/
def fontNoLoca : Bytes :=
  bytesOf ([0,1,0,0, 0,1, 0,0,0,0,0,0] ++
    [99,109,97,112, 0,0,0,0, 0,0,0,28, 0,0,0,0] ++
    [0,0, 0,1, 0,0, 0,0, 0,0,0,16])

/-- Axis-aligned unit square covering pixel `(1,1)` of a 3×3 glyph box
(font units; the rasterizer negates y). -/
def unitSq : List Pt := [⟨1,-1⟩, ⟨2,-1⟩, ⟨2,-2⟩, ⟨1,-2⟩]

/-- The same square scaled up by 10 but rendered at scale 1/10 with its right
edge at x = 1.3: pixel `(1,1)` receives exact coverage 3/10. -/
def sq03 : List Pt := [⟨10,-10⟩, ⟨13,-10⟩, ⟨13,-20⟩, ⟨10,-20⟩]

def box3 : Box := { x0 := 0, y0 := 0, x1 := 3, y1 := 3 }

/-- Font bytes for the composite-glyph scenario: `loca` (format 0) at offset
0, `glyf` at offset 8; glyph 1 is a simple triangle (3 on-curve points),
glyph 2 a composite of two copies of glyph 1 with identity matrices at XY
offsets (0,0) and (100,0). -/
def font6 : Bytes := bytesOf ([0,0, 0,0, 0,12, 0,25] ++
  [0,1, 0,0,0,0,0,0,0,0, 0,2, 0,0, 55,55,55, 10,20,5, 5,10,2, 0] ++
  [255,255, 0,0,0,0,0,0,0,0, 0,35, 0,1, 0,0, 0,0, 0,3, 0,1, 0,100, 0,0])

def info6 : TTFData :=
  { loca := 0, head := 0, glyf := 8, hhea := 0, hmtx := 0,
    cmap := 0, numGlyphs := 3, indexToLocFormat := 0 }

/-- The decoded outline of glyph 1 of `font6`. -/
def vertsTriangle : List Vertex :=
  [{ x := 10, y := 5, cx := 0, cy := 0, type := 0 },
   { x := 30, y := 15, cx := 0, cy := 0, type := 1 },
   { x := 35, y := 17, cx := 0, cy := 0, type := 1 },
   { x := 10, y := 5, cx := 0, cy := 0, type := 1 }]

/-- Like `font6`, but the component glyph has its single point at
x = 32700, so the second copy's x-coordinate 32800 overflows `int16_t`. -/
def font6o : Bytes := bytesOf ([0,0, 0,0, 0,9, 0,22] ++
  [0,1, 0,0,0,0,0,0,0,0, 0,0, 0,0, 37, 127,188, 0] ++
  [255,255, 0,0,0,0,0,0,0,0, 0,35, 0,1, 0,0, 0,0, 0,3, 0,1, 0,100, 0,0])

def info6o : TTFData :=
  { loca := 0, head := 0, glyf := 8, hhea := 0, hmtx := 0,
    cmap := 0, numGlyphs := 3, indexToLocFormat := 0 }

/-- Glyph-ID assignment for the missing-character witnesses: characters 1 and
3 are unmapped, all others map to a nonzero ID. -/
def gW : Nat → Nat := fun i => if i = 1 then 0 else if i = 3 then 0 else i + 1

/-- All glyph boxes 1×1 for the witnesses. -/
def boxW : Nat → Box := fun _ => { x0 := 0, y0 := 0, x1 := 1, y1 := 1 }

def advW : Nat → Nat := fun _ => 10

/-! ## Theorems settling the specification claims -/

/-- **C3** (code bug).  The specification says a buffer missing any one of the
six required tables fails table location with `FormatError`.  The source tests
`!cmap || !info.loca || …` where `cmap` is the raw table offset but
`info.loca` … `info.hmtx` are the pointers `data + offset`, which are never
null when the font buffer pointer is valid (here `base = 1`), so for those
five tables the test cannot fire.  `fontNoLoca`'s directory holds only a
`cmap` record (first conjunct: no record carries the `loca` tag), yet table
location succeeds instead of failing with `FormatError`. -/
theorem findAllTables_missing_loca_undetected :
    (∀ i, i < readUint16 fontNoLoca 4 → tagAt fontNoLoca (12 + 16*i) ≠ tag_loca) ∧
    findAllTables 1 fontNoLoca =
      .ok { loca := 0, head := 0, glyf := 0, hhea := 0, hmtx := 0,
            cmap := 44, numGlyphs := 65535, indexToLocFormat := 0 } := by
  exact ⟨by decide, rfl⟩

/-- **C8** (code bug).  The specification says a format-0 lookup of a code
point ≤ 0xFF returns exactly the stored glyph-ID byte, for every byte value in
[0,255].  The source reads the byte through an `int8_t` cast
(`*reinterpret_cast<const int8_t*>(...)`) and returns it as `uint32_t`: for
stored bytes ≥ 128 the value is sign-extended.  With the byte 200 stored at
index 65, lookup(65) returns 2^32 − 56 = 4294967240, not 200 (lookups above
0xFF correctly return 0). -/
theorem charCode2GlyphID_format0_sign_extended :
    charCode2GlyphID cmap0ex infoAt0 300 = .ok 0 ∧
    charCode2GlyphID cmap0ex infoAt0 65 = .ok 4294967240 ∧
    (4294967240 : Nat) ≠ 200 := by
  exact ⟨rfl, rfl, by decide⟩

/-- **C9 counterexample.**  The control point (1,0) lies on the chord from
(0,0) to (4,0) (at parameter 1/4), yet with `renderGlyph`'s tolerance
`eps² = 0.35² = 49/400` (scale 1) the chord-midpoint deviation is 1/4·1 = 1/2
in x, whose square 1/4 exceeds the tolerance: the flattener recurses and
emits two points, not the single endpoint.  "Control point on the chord"
does not imply zero recursion. -/
theorem tesselateQuad_on_chord_recurses :
    tesselateQuad [] 0 0 1 0 4 0 (49/400) 0 = [((3:ℚ)/2, (0:ℚ)), (4, 0)] ∧
    tesselateQuad [] 0 0 1 0 4 0 (49/400) 0 ≠ [((4:ℚ), (0:ℚ))] := by
  with_unfolding_all decide

/-- **C9 (amended).**  When the control point is the *midpoint* of the chord,
the midpoint-deviation is identically zero, so for any nonnegative tolerance
and any depth within the cap the flattener emits the endpoint as a single
straight segment with zero recursion. -/
theorem tesselateQuad_midpoint_control (pts : List (ℚ × ℚ)) (x0 y0 x2 y2 eps2 : ℚ)
    (depth : Int) (heps : 0 ≤ eps2) (hdepth : depth ≤ 16) :
    tesselateQuad pts x0 y0 ((x0+x2)/2) ((y0+y2)/2) x2 y2 eps2 depth = pts ++ [(x2, y2)] := by
  have hfuel : (18 - depth).toNat = (17 - depth).toNat + 1 := by omega
  rw [tesselateQuad, hfuel]
  show tesselateQuadF eps2 ((17 - depth).toNat + 1) pts x0 y0 ((x0+x2)/2) ((y0+y2)/2) x2 y2 depth
      = pts ++ [(x2, y2)]
  rw [tesselateQuadF]
  rw [if_neg (by omega : ¬ depth > 16)]
  have hdx : (x0 + x2)/2 - (x0 + 2*((x0+x2)/2) + x2)/4 = 0 := by ring
  have hdy : (y0 + y2)/2 - (y0 + 2*((y0+y2)/2) + y2)/4 = 0 := by ring
  simp only []
  rw [hdx, hdy]
  rw [if_neg (by simpa using heps)]

/-- Witness for `tesselateQuad_midpoint_control` at a concrete flat quad. -/
theorem tesselateQuad_midpoint_control_witness :
    (0:ℚ) ≤ 0 ∧ (0:Int) ≤ 16 ∧
    tesselateQuad [] 0 0 ((0+2)/2) ((0+0)/2) 2 0 0 0 = [] ++ [((2:ℚ), (0:ℚ))] :=
  ⟨le_refl 0, by decide, tesselateQuad_midpoint_control [] 0 0 2 0 0 0 (le_refl 0) (by decide)⟩

/-- **C2 counterexample.**  A square contour with exact pixel coverage 3/10
(left edge at x=1, right edge at x=1.3, spanning the full row) produces
pixel value 76 = trunc(76.8): the value the claimed formula
`clamp(round(256 × (local + running_sum)))` assigns is 77.  The code's cast
`int(...)` truncates toward zero; it does not round. -/
theorem renderGlyph_trunc_not_round :
    renderGlyphPixels [sq03] (1/10) box3 = [[0,0,0],[0,76,0],[0,0,0]] ∧
    clampPix (3/10) = 76 ∧ clampPixSpec (3/10) = 77 ∧ (76 : Int) ≠ 77 := by
  with_unfolding_all decide

theorem clampPix_bounds (v : ℚ) : 0 ≤ clampPix v ∧ clampPix v ≤ 255 := by
  unfold clampPix
  exact ⟨le_max_left 0 _, max_le (by norm_num) (min_le_left _ _)⟩

theorem pixelRow_bounds (row rowSum : Buf) :
    ∀ (n : Nat) (i : Int) (s : ℚ) (v : Int), v ∈ pixelRow row rowSum n i s →
      0 ≤ v ∧ v ≤ 255 := by
  intro n
  induction n with
  | zero => intro i s v hv; simp [pixelRow] at hv
  | succ k ih =>
    intro i s v hv
    rw [pixelRow] at hv
    rcases List.mem_cons.mp hv with h | h
    · exact h ▸ clampPix_bounds _
    · exact ih _ _ _ h

theorem sweepRows_bounds (w : Nat) (y0 : Int) :
    ∀ (n j : Nat) (act st : List Edge) (r : List Int), r ∈ sweepRows w y0 n j act st →
      ∀ v ∈ r, 0 ≤ v ∧ v ≤ 255 := by
  intro n
  induction n with
  | zero => intro j act st r hr; simp [sweepRows] at hr
  | succ k ih =>
    intro j act st r hr v hv
    rw [sweepRows] at hr
    rcases List.mem_cons.mp hr with h | h
    · exact pixelRow_bounds _ _ _ _ _ v (h ▸ hv)
    · exact ih _ _ _ r h v hv

theorem getD_int_bounds :
    ∀ (l : List Int), (∀ v ∈ l, 0 ≤ v ∧ v ≤ 255) → ∀ i, 0 ≤ l.getD i 0 ∧ l.getD i 0 ≤ 255 := by
  intro l
  induction l with
  | nil => intro _ i; simp [List.getD]
  | cons a t ih =>
    intro h i
    cases i with
    | zero => simpa using h a (by simp)
    | succ n => simpa using ih (fun v hv => h v (by simp [hv])) n

theorem getD_row_bounds :
    ∀ (ll : List (List Int)), (∀ r ∈ ll, ∀ v ∈ r, 0 ≤ v ∧ v ≤ 255) →
      ∀ i, ∀ v ∈ ll.getD i [], 0 ≤ v ∧ v ≤ 255 := by
  intro ll
  induction ll with
  | nil => intro _ i; simp [List.getD]
  | cons r t ih =>
    intro h i
    cases i with
    | zero => simpa using h r (by simp)
    | succ n => simpa using ih (fun q hq => h q (by simp [hq])) n

/-- **C2 (amended).**  Rasterizing the axis-aligned unit-square contour that
covers exactly pixel (1,1) of a 3×3 glyph box yields coverage 255 there and 0
at every neighbour, where each final pixel value is
`clamp(trunc(256 × (local + running_sum)), 0, 255)` — truncation toward zero,
not rounding — so every produced coverage value lies in [0,255] (second
conjunct, for every contour set, scale and box, with out-of-range reads
defaulting to 0). -/
theorem renderGlyph_unit_square_and_range :
    renderGlyphPixels [unitSq] 1 box3 = [[0,0,0],[0,255,0],[0,0,0]] ∧
    ∀ (contours : List (List Pt)) (scale : ℚ) (box : Box) (i j : Nat),
      0 ≤ ((renderGlyphPixels contours scale box).getD i []).getD j 0 ∧
      ((renderGlyphPixels contours scale box).getD i []).getD j 0 ≤ 255 := by
  constructor
  · with_unfolding_all decide
  · intro contours scale box i j
    have hrows : ∀ r ∈ renderGlyphPixels contours scale box, ∀ v ∈ r, 0 ≤ v ∧ v ≤ 255 := by
      intro r hr
      simp only [renderGlyphPixels] at hr
      exact sweepRows_bounds _ _ _ _ _ _ r hr
    exact getD_int_bounds _ (getD_row_bounds _ hrows i) j

/-- Any fuel at least `(18 - depth).toNat` replays the source recursion of
`tesselateQuad` exactly: the subdivision tree from depth `d` is at most
`17 - d` calls deep, because every level increments `depth` and the
`depth > 16` guard stops. -/
theorem tesselateQuadF_canonical :
    ∀ (fuel : Nat) (eps2 : ℚ) (pts : List (ℚ × ℚ)) (x0 y0 x1 y1 x2 y2 : ℚ) (depth : Int),
      (18 - depth).toNat ≤ fuel →
      tesselateQuadF eps2 fuel pts x0 y0 x1 y1 x2 y2 depth =
        tesselateQuadF eps2 (18 - depth).toNat pts x0 y0 x1 y1 x2 y2 depth := by
  intro fuel
  induction fuel using Nat.strong_induction_on with
  | _ fuel ih =>
    intro eps2 pts x0 y0 x1 y1 x2 y2 depth hle
    match fuel, hle with
    | 0, hle =>
      have h0 : (18 - depth).toNat = 0 := by omega
      rw [h0]
    | f+1, hle =>
      by_cases hd : depth > 16
      · have h1 : tesselateQuadF eps2 (f+1) pts x0 y0 x1 y1 x2 y2 depth = pts := by
          rw [tesselateQuadF, if_pos hd]
        rcases Nat.eq_zero_or_eq_succ_pred (18 - depth).toNat with h18 | h18
        · rw [h1, h18, tesselateQuadF]
        · rw [h1, h18, tesselateQuadF, if_pos hd]
      · have h18 : (18 - depth).toNat = (17 - depth).toNat + 1 := by omega
        have h17 : (17 - depth).toNat = (18 - (depth+1)).toNat := by omega
        have hf : (18 - (depth+1)).toNat ≤ f := by omega
        rw [h18, tesselateQuadF, tesselateQuadF, if_neg hd, if_neg hd]
        simp only []
        by_cases hc :
            ((x0 + x2)/2 - (x0 + 2*x1 + x2)/4) * ((x0 + x2)/2 - (x0 + 2*x1 + x2)/4) +
            ((y0 + y2)/2 - (y0 + 2*y1 + y2)/4) * ((y0 + y2)/2 - (y0 + 2*y1 + y2)/4) > eps2
        · rw [if_pos hc, if_pos hc]
          rw [ih f (by omega) eps2 pts x0 y0 ((x0+x1)/2) ((y0+y1)/2)
                ((x0 + 2*x1 + x2)/4) ((y0 + 2*y1 + y2)/4) (depth+1) (by omega)]
          rw [← h17]
          rw [ih f (by omega) eps2 _ ((x0 + 2*x1 + x2)/4) ((y0 + 2*y1 + y2)/4)
                ((x1+x2)/2) ((y1+y2)/2) x2 y2 (depth+1) (by omega)]
          rw [← h17]
        · rw [if_neg hc, if_neg hc]

/-- **C7.**  The adaptive subdivision terminates on every input: (first
conjunct) from starting depth `d` the whole recursion completes within the
depth-cap bound — any fuel of at least `(18 - d).toNat` produces the result
of `tesselateQuad` — and (second conjunct) the flattener recurses only while
the squared chord-midpoint deviation exceeds `eps2`: when it does not (and
the depth cap has not fired) it emits exactly the endpoint. -/
theorem tesselateQuad_terminates :
    (∀ (fuel : Nat) (eps2 : ℚ) (pts : List (ℚ × ℚ)) (x0 y0 x1 y1 x2 y2 : ℚ) (depth : Int),
       (18 - depth).toNat ≤ fuel →
       tesselateQuadF eps2 fuel pts x0 y0 x1 y1 x2 y2 depth =
         tesselateQuad pts x0 y0 x1 y1 x2 y2 eps2 depth) ∧
    (∀ (eps2 : ℚ) (pts : List (ℚ × ℚ)) (x0 y0 x1 y1 x2 y2 : ℚ) (depth : Int),
       depth ≤ 16 →
       ¬(((x0 + x2)/2 - (x0 + 2*x1 + x2)/4) * ((x0 + x2)/2 - (x0 + 2*x1 + x2)/4) +
         ((y0 + y2)/2 - (y0 + 2*y1 + y2)/4) * ((y0 + y2)/2 - (y0 + 2*y1 + y2)/4) > eps2) →
       tesselateQuad pts x0 y0 x1 y1 x2 y2 eps2 depth = pts ++ [(x2, y2)]) := by
  constructor
  · intro fuel eps2 pts x0 y0 x1 y1 x2 y2 depth hle
    exact tesselateQuadF_canonical fuel eps2 pts x0 y0 x1 y1 x2 y2 depth hle
  · intro eps2 pts x0 y0 x1 y1 x2 y2 depth hdepth hc
    have hfuel : (18 - depth).toNat = (17 - depth).toNat + 1 := by omega
    rw [tesselateQuad, hfuel, tesselateQuadF, if_neg (by omega : ¬ depth > 16)]
    simp only []
    rw [if_neg hc]

/-- Witness for `tesselateQuad_terminates`: a flat quad with midpoint control,
tolerance 1, fuel 100 from depth 0. -/
theorem tesselateQuad_terminates_witness :
    ((18 - (0:Int)).toNat ≤ 100) ∧
    tesselateQuadF 1 100 [] 0 0 1 0 2 0 0 = tesselateQuad [] 0 0 1 0 2 0 1 0 ∧
    ((0:Int) ≤ 16) ∧
    ¬((((0:ℚ) + 2)/2 - (0 + 2*1 + 2)/4) * (((0:ℚ) + 2)/2 - (0 + 2*1 + 2)/4) +
      (((0:ℚ) + 0)/2 - (0 + 2*0 + 0)/4) * (((0:ℚ) + 0)/2 - (0 + 2*0 + 0)/4) > 1) ∧
    tesselateQuad [] 0 0 1 0 2 0 1 0 = [] ++ [((2:ℚ), (0:ℚ))] :=
  ⟨by decide,
   tesselateQuad_terminates.1 100 1 [] 0 0 1 0 2 0 0 (by decide),
   by decide,
   by with_unfolding_all decide,
   tesselateQuad_terminates.2 1 [] 0 0 1 0 2 0 0 (by decide) (by with_unfolding_all decide)⟩

theorem searchLoopF_one (d : Bytes) (c rp : Nat) :
    ∀ (f e : Nat), searchLoopF d c rp f e 1 = e := by
  intro f e
  cases f with
  | zero => rfl
  | succ k => rw [searchLoopF, if_neg (by omega)]

/-- The probe test of one `searchLoop` iteration, in segment terms: with the
cursor at virtual segment `t-1` and step `e ≥ 1` segments, the source's
`search2 < reservedPad && readUint16(search2) < charCode` holds exactly when
the sought segment `K` (least segment whose `endCode` is ≥ the code point)
is at or beyond the probe, i.e. `t + e ≤ K`. -/
theorem searchLoop_probe_iff (d : Bytes) (cm c sc K : Nat)
    (hsort : ∀ i j, i ≤ j → j < sc → endCodeAt d cm i ≤ endCodeAt d cm j)
    (hK : K ≤ sc) (hKlt : ∀ i, i < K → endCodeAt d cm i < c)
    (hKge : K < sc → c ≤ endCodeAt d cm K) (t e : Nat) (he : 1 ≤ e) :
    (cm + 12 + 2*t + 2*e < cm + 14 + 2*sc ∧ readUint16 d (cm + 12 + 2*t + 2*e) < c)
      ↔ t + e ≤ K := by
  have haddr : cm + 12 + 2*t + 2*e = cm + 14 + 2*(t + e - 1) := by omega
  rw [haddr]
  have hread : readUint16 d (cm + 14 + 2*(t+e-1)) = endCodeAt d cm (t+e-1) := rfl
  rw [hread]
  constructor
  · rintro ⟨hb, hp⟩
    by_contra hnot
    push_neg at hnot
    have h2 : t + e - 1 < sc := by omega
    have h3 : K < sc := by omega
    exact absurd hp (not_lt.mpr (le_trans (hKge h3) (hsort K (t+e-1) (by omega) h2)))
  · intro hte
    exact ⟨by omega, hKlt _ (by omega)⟩

/-- Correctness of the format-4 binary search: from the cursor at virtual
segment `t-1` with search range `2^(j+1)` bytes and enough fuel, the loop
lands on byte offset `cm + 12 + 2K`, i.e. one entry before segment `K`,
provided the invariant `t ≤ K < t + 2^(j+1)` holds. -/
theorem searchLoopF_finds (d : Bytes) (cm c sc K : Nat)
    (hsort : ∀ i j, i ≤ j → j < sc → endCodeAt d cm i ≤ endCodeAt d cm j)
    (hK : K ≤ sc) (hKlt : ∀ i, i < K → endCodeAt d cm i < c)
    (hKge : K < sc → c ≤ endCodeAt d cm K) :
    ∀ (j t fuel : Nat), 2^(j+1) ≤ fuel → t ≤ K → K < t + 2^(j+1) →
      searchLoopF d c (cm + 14 + 2*sc) fuel (cm + 12 + 2*t) (2^(j+1)) = cm + 12 + 2*K := by
  intro j
  induction j with
  | zero =>
    intro t fuel hfuel ht hK2
    obtain ⟨f, rfl⟩ : ∃ f, fuel = f + 1 := ⟨fuel - 1, by omega⟩
    have hpow : (2:Nat)^(0+1) = 2*1 := by norm_num
    rw [hpow, searchLoopF, if_pos (by omega)]
    simp only []
    by_cases htk : t + 1 ≤ K
    · rw [if_pos ((searchLoop_probe_iff d cm c sc K hsort hK hKlt hKge t 1 (le_refl 1)).mpr htk)]
      have hdiv : 2*1/2 = 1 := by norm_num
      rw [hdiv, searchLoopF_one]
      omega
    · rw [if_neg (fun hc => htk
        ((searchLoop_probe_iff d cm c sc K hsort hK hKlt hKge t 1 (le_refl 1)).mp hc))]
      have hdiv : 2*1/2 = 1 := by norm_num
      rw [hdiv, searchLoopF_one]
      omega
  | succ j ih =>
    intro t fuel hfuel ht hK2
    have hp1 : (1:Nat) ≤ 2^(j+1) := Nat.one_le_two_pow
    obtain ⟨f, rfl⟩ : ∃ f, fuel = f + 1 := ⟨fuel - 1, by omega⟩
    have hpow : (2:Nat)^(j+1+1) = 2*2^(j+1) := by rw [pow_succ]; ring
    rw [hpow, searchLoopF, if_pos (by omega)]
    simp only []
    have hdiv : 2*2^(j+1)/2 = 2^(j+1) := by omega
    by_cases htk : t + 2^(j+1) ≤ K
    · rw [if_pos ((searchLoop_probe_iff d cm c sc K hsort hK hKlt hKge t (2^(j+1))
        (by omega)).mpr htk)]
      have hptr : cm + 12 + 2*t + 2*2^(j+1) = cm + 12 + 2*(t + 2^(j+1)) := by ring
      rw [hdiv, hptr]
      exact ih (t + 2^(j+1)) f (by omega) htk (by omega)
    · rw [if_neg (fun hc => htk
        ((searchLoop_probe_iff d cm c sc K hsort hK hKlt hKge t (2^(j+1)) (by omega)).mp hc))]
      rw [hdiv]
      exact ih t f (by omega) ht (by omega)

theorem toUInt32_mod65536 (z : Int) : toUInt32 z % 65536 = ((z % 65536).toNat) := by
  unfold toUInt32
  omega

/-- The format-4 lookup, characterised through the owning segment `K`:
the least segment whose `endCode` is at least the code point (`K = sc` when
there is none).  Hypotheses: the subtable stores `segCount = sc` (as
`segCountX2`), the spec-compliant `searchRange = 2·2^⌊log₂ sc⌋`, and a sorted
`endCode` array. -/
theorem lookupFormat4_spec (d : Bytes) (cm c sc m K : Nat)
    (hsc : readUint16 d (cm + 6) = 2 * sc)
    (hsr : readUint16 d (cm + 8) = 2 * 2^m)
    (_hL1 : 2^m ≤ sc) (hL2 : sc < 2 * 2^m)
    (hsort : ∀ i j, i ≤ j → j < sc → endCodeAt d cm i ≤ endCodeAt d cm j)
    (hK : K ≤ sc) (hKlt : ∀ i, i < K → endCodeAt d cm i < c)
    (hKge : K < sc → c ≤ endCodeAt d cm K) :
    lookupFormat4 d cm c =
      if K = sc then 0
      else if c < startCodeAt d cm sc K then 0
      else if idRangeOffsetAt d cm sc K = 0 then
        (((c : Int) + idDeltaAt d cm sc K) % 65536).toNat
      else readUint16 d (idRangeOffsetAddr cm sc K + idRangeOffsetAt d cm sc K
             + 2 * (c - startCodeAt d cm sc K)) := by
  have hpow : 2 * 2^m = 2^(m+1) := by rw [pow_succ]; ring
  have hfind : searchLoop d c (cm + 14 + 2*sc) (cm + 14 - 2) (2 * 2^m) = cm + 12 + 2*K := by
    have h14 : cm + 14 - 2 = cm + 12 + 2*0 := by omega
    rw [searchLoop, h14, hpow]
    exact searchLoopF_finds d cm c sc K hsort hK hKlt hKge m 0 (2^(m+1))
      (le_refl _) (by omega) (by omega)
  simp only [lookupFormat4]
  rw [hsc, hsr, hfind]
  by_cases hKsc : K = sc
  · rw [if_pos (by omega), if_pos hKsc]
  · rw [if_neg (by omega), if_neg hKsc]
    have haddr1 : cm + 12 + 2*K + 2 + 2 + 2*sc = cm + 16 + 2*sc + 2*K := by omega
    rw [haddr1]
    have hstart : readUint16 d (cm + 16 + 2*sc + 2*K) = startCodeAt d cm sc K := rfl
    rw [hstart]
    by_cases hcs : c < startCodeAt d cm sc K
    · rw [if_pos hcs, if_pos hcs]
    · rw [if_neg hcs, if_neg hcs]
      have haddr2 : cm + 16 + 2*sc + 2*K + 2*(2*sc) = idRangeOffsetAddr cm sc K := by
        rw [idRangeOffsetAddr]; omega
      rw [haddr2]
      have haddr3 : cm + 16 + 2*sc + 2*K + 2*sc = cm + 16 + 4*sc + 2*K := by omega
      rw [haddr3]
      have hdelta : readInt16 d (cm + 16 + 4*sc + 2*K) = idDeltaAt d cm sc K := rfl
      rw [hdelta]
      have hioff : readUint16 d (idRangeOffsetAddr cm sc K) = idRangeOffsetAt d cm sc K := rfl
      rw [hioff]
      by_cases hoff : idRangeOffsetAt d cm sc K = 0
      · rw [if_pos hoff, if_pos hoff, toUInt32_mod65536]
      · rw [if_neg hoff, if_neg hoff]

/-- **C4.**  For a format-4 cmap subtable with sorted `endCode` array and
spec-compliant `searchRange`, the binary search of `charCode2GlyphID` finds
the owning segment `K` (the least segment with `endCode ≥ c`, `sc` if none);
the lookup returns 0 when no segment owns `c` or when `c` is below the
segment's `startCode`; it returns `(c + signed idDelta) mod 65536` when the
segment's `idRangeOffset` is zero, and otherwise reads the glyph ID through
the `glyphIdArray` at the computed offset. -/
theorem charCode2GlyphID_format4_spec (d : Bytes) (info : TTFData) (c sc m K : Nat)
    (hfmt : readUint16 d info.cmap = 4)
    (hsc : readUint16 d (info.cmap + 6) = 2 * sc)
    (hsr : readUint16 d (info.cmap + 8) = 2 * 2^m)
    (hL1 : 2^m ≤ sc) (hL2 : sc < 2 * 2^m)
    (hsort : ∀ i j, i ≤ j → j < sc → endCodeAt d info.cmap i ≤ endCodeAt d info.cmap j)
    (hK : K ≤ sc) (hKlt : ∀ i, i < K → endCodeAt d info.cmap i < c)
    (hKge : K < sc → c ≤ endCodeAt d info.cmap K) :
    charCode2GlyphID d info c =
      if K = sc then .ok 0
      else if c < startCodeAt d info.cmap sc K then .ok 0
      else if idRangeOffsetAt d info.cmap sc K = 0 then
        .ok ((((c : Int) + idDeltaAt d info.cmap sc K) % 65536).toNat)
      else .ok (readUint16 d (idRangeOffsetAddr info.cmap sc K + idRangeOffsetAt d info.cmap sc K
             + 2 * (c - startCodeAt d info.cmap sc K))) := by
  have hbody := lookupFormat4_spec d info.cmap c sc m K hsc hsr hL1 hL2 hsort hK hKlt hKge
  simp only [charCode2GlyphID]
  rw [hfmt]
  rw [if_neg (by omega), if_pos rfl, hbody]
  by_cases h1 : K = sc
  · rw [if_pos h1, if_pos h1]
  · rw [if_neg h1, if_neg h1]
    by_cases h2 : c < startCodeAt d info.cmap sc K
    · rw [if_pos h2, if_pos h2]
    · rw [if_neg h2, if_neg h2]
      by_cases h3 : idRangeOffsetAt d info.cmap sc K = 0
      · rw [if_pos h3, if_pos h3]
      · rw [if_neg h3, if_neg h3]

/-- Witness for `charCode2GlyphID_format4_spec` on the specification's
scenario subtable (`cmap4ex`: one segment [65,90], `idDelta = 0`,
`idRangeOffset = 0`): lookup(65) = 65 (owning segment K = 0) and
lookup(200) = 0 (no owning segment, K = 1 = segCount). -/
theorem charCode2GlyphID_format4_witness :
    readUint16 cmap4ex infoAt0.cmap = 4 ∧
    readUint16 cmap4ex (infoAt0.cmap + 6) = 2 * 1 ∧
    readUint16 cmap4ex (infoAt0.cmap + 8) = 2 * 2^0 ∧
    charCode2GlyphID cmap4ex infoAt0 65 = .ok 65 ∧
    charCode2GlyphID cmap4ex infoAt0 200 = .ok 0 := by
  have hsort1 : ∀ i j : Nat, i ≤ j → j < 1 →
      endCodeAt cmap4ex infoAt0.cmap i ≤ endCodeAt cmap4ex infoAt0.cmap j := by
    intro i j hij hj
    have hj0 : j = 0 := by omega
    have hi0 : i = 0 := by omega
    rw [hi0, hj0]
  refine ⟨by decide, by decide, by decide, ?_, ?_⟩
  · have h := charCode2GlyphID_format4_spec cmap4ex infoAt0 65 1 0 0
      (by decide) (by decide) (by decide) (by decide) (by decide)
      hsort1 (by decide) (by decide) (by decide)
    rw [h]
    rfl
  · have h := charCode2GlyphID_format4_spec cmap4ex infoAt0 200 1 0 1
      (by decide) (by decide) (by decide) (by decide) (by decide)
      hsort1 (by decide) (by decide) (by decide)
    rw [h]
    rfl

theorem getD_set_self {α : Type} {d : α} {l : List α} {i : Nat} (h : i < l.length) (a : α) :
    (l.set i a).getD i d = a := by
  simp [List.getD_eq_getElem?_getD, List.getElem?_set_self (by simpa using h)]

theorem getD_set_ne {α : Type} {d : α} {l : List α} {i j : Nat} (h : i ≠ j) (a : α) :
    (l.set i a).getD j d = l.getD j d := by
  simp [List.getD_eq_getElem?_getD, List.getElem?_set_ne h]

theorem rectDisjoint_symm {a b : GlyphRect} (h : rectDisjoint a b) : rectDisjoint b a := by
  unfold rectDisjoint at *
  tauto

/-- Facts about one already-placed rectangle relative to the packing cursor
`(x, y, rowHeight)`: in bounds horizontally, and either on the current shelf
(ending before the cursor, no taller than the shelf) or on a finished shelf
(ending at least one padding row above the current shelf top). -/
def PlacedOK (r : GlyphRect) (x y rh : Int) : Prop :=
  1 ≤ r.x ∧ r.x + r.w + 1 ≤ 256 ∧ 1 ≤ r.y ∧ r.y + r.h ≤ y + rh ∧
  (r.y = y → r.x + r.w + 1 ≤ x ∧ r.h ≤ rh) ∧
  (r.y ≠ y → r.y + r.h + 1 ≤ y)

/-- The loop invariant of `packRects`: cursor sanity, per-placed facts, and
pairwise padded disjointness over the processed indices `done`. -/
def PackInv (rs : List GlyphRect) (x y rh : Int) (done : List Nat) : Prop :=
  (1 ≤ x ∧ 1 ≤ y ∧ 0 ≤ rh) ∧
  (∀ i ∈ done, (rs.getD i noRect).missing = false → PlacedOK (rs.getD i noRect) x y rh) ∧
  (∀ i ∈ done, ∀ j ∈ done, i ≠ j → (rs.getD i noRect).missing = false →
     (rs.getD j noRect).missing = false →
     rectDisjoint (rs.getD i noRect) (rs.getD j noRect))

theorem PlacedOK_mono {r : GlyphRect} {x y rh x2 rh2 : Int}
    (hx : x ≤ x2) (hrh : rh ≤ rh2) (h : PlacedOK r x y rh) : PlacedOK r x2 y rh2 := by
  unfold PlacedOK at *
  omega

theorem PlacedOK_shelf {r : GlyphRect} {x y rh x2 y2 rh2 : Int}
    (h : PlacedOK r x y rh) (hh : 0 ≤ r.h) (hy2 : y + rh < y2) (hrh2 : 0 ≤ rh2) :
    PlacedOK r x2 y2 rh2 := by
  unfold PlacedOK at *
  omega

theorem packStep_inv (rs : List GlyphRect) (x y rh : Int) (done : List Nat) (i : Nat)
    (hinv : PackInv rs x y rh done)
    (hgood : ∀ k, GoodRect (rs.getD k noRect))
    (hi : i < rs.length) (hnew : i ∉ done) :
    PackInv (packStep (rs, x, y, rh) i).1 (packStep (rs, x, y, rh) i).2.1
      (packStep (rs, x, y, rh) i).2.2.1 (packStep (rs, x, y, rh) i).2.2.2 (done ++ [i]) ∧
    (packStep (rs, x, y, rh) i).1.length = rs.length ∧
    (∀ k, ((packStep (rs, x, y, rh) i).1.getD k noRect).missing = (rs.getD k noRect).missing ∧
          ((packStep (rs, x, y, rh) i).1.getD k noRect).w = (rs.getD k noRect).w ∧
          ((packStep (rs, x, y, rh) i).1.getD k noRect).h = (rs.getD k noRect).h) := by
  obtain ⟨⟨hx, hy, hrh⟩, hplaced, hpair⟩ := hinv
  have hmem : ∀ j ∈ done, j ≠ i := fun j hj hji => hnew (hji ▸ hj)
  simp only [packStep, padding, atlasWidth]
  by_cases hm : (rs.getD i noRect).missing = true
  · rw [if_pos hm]
    refine ⟨⟨⟨hx, hy, hrh⟩, ?_, ?_⟩, rfl, fun k => ⟨rfl, rfl, rfl⟩⟩
    · intro j hj hjm
      rcases List.mem_append.mp hj with h | h
      · exact hplaced j h hjm
      · have hje : j = i := by simpa using h
        subst hje
        have hc2 : (rs.getD j noRect).missing = false := hjm
        rw [hm] at hc2
        simp at hc2
    · intro a ha b hb hne hma hmb
      rcases List.mem_append.mp ha with ha' | ha'
      · rcases List.mem_append.mp hb with hb' | hb'
        · exact hpair a ha' b hb' hne hma hmb
        · have hbe : b = i := by simpa using hb'
          subst hbe
          have hc2 : (rs.getD b noRect).missing = false := hmb
          rw [hm] at hc2
          simp at hc2
      · have hae : a = i := by simpa using ha'
        subst hae
        have hc2 : (rs.getD a noRect).missing = false := hma
        rw [hm] at hc2
        simp at hc2
  · rw [if_neg hm]
    have hmf : (rs.getD i noRect).missing = false := by
      cases h : (rs.getD i noRect).missing
      · rfl
      · exact absurd h hm
    obtain ⟨hw0, hw254, hh0⟩ := hgood i hmf
    have hw254n : (rs.getD i noRect).w + 2 ≤ 256 := by
      simpa [padding, atlasWidth] using hw254
    by_cases hwrap : x + (rs.getD i noRect).w + 1 > 256
    · rw [if_pos hwrap]
      dsimp only
      have hset : ∀ k, ((rs.set i { rs.getD i noRect with x := 1, y := y + rh + 1 }).getD k noRect)
          = if k = i then { rs.getD i noRect with x := 1, y := y + rh + 1 }
            else rs.getD k noRect := by
        intro k
        by_cases hk : k = i
        · rw [if_pos hk, hk, getD_set_self hi]
        · rw [if_neg hk, getD_set_ne (fun h => hk h.symm)]
      refine ⟨⟨⟨by omega, by omega, le_trans (le_refl 0) (le_max_left 0 _)⟩, ?_, ?_⟩,
        by simp, fun k => by rw [hset k]; split <;> simp_all⟩
      · intro j hj hjm
        rw [hset j] at hjm ⊢
        rcases List.mem_append.mp hj with h | h
        · rw [if_neg (hmem j h)] at hjm ⊢
          exact PlacedOK_shelf (hplaced j h hjm) ((hgood j hjm).2.2) (by omega)
            (le_max_left 0 _)
        · have hji : j = i := by simpa using h
          rw [if_pos hji]
          have e1 : ({ rs.getD i noRect with x := 1, y := y + rh + 1 } : GlyphRect).x = 1 := rfl
          have e2 : ({ rs.getD i noRect with x := 1, y := y + rh + 1 } : GlyphRect).y
              = y + rh + 1 := rfl
          have e3 : ({ rs.getD i noRect with x := 1, y := y + rh + 1 } : GlyphRect).w
              = (rs.getD i noRect).w := rfl
          have e4 : ({ rs.getD i noRect with x := 1, y := y + rh + 1 } : GlyphRect).h
              = (rs.getD i noRect).h := rfl
          unfold PlacedOK
          rw [e1, e2, e3, e4]
          have hmaxr := le_max_right (0:Int) (rs.getD i noRect).h
          refine ⟨by omega, by omega, by omega, by omega, fun _ => ⟨by omega, by omega⟩,
            fun hne => absurd rfl hne⟩
      · intro a ha b hb hne hma hmb
        rw [hset a] at hma ⊢
        rw [hset b] at hmb ⊢
        rcases List.mem_append.mp ha with ha' | ha'
        · rcases List.mem_append.mp hb with hb' | hb'
          · rw [if_neg (hmem a ha')] at hma ⊢
            rw [if_neg (hmem b hb')] at hmb ⊢
            exact hpair a ha' b hb' hne hma hmb
          · have hbi : b = i := by simpa using hb'
            rw [if_neg (hmem a ha')] at hma ⊢
            rw [if_pos hbi]
            have hp := hplaced a ha' hma
            have hha : 0 ≤ (rs.getD a noRect).h := (hgood a hma).2.2
            unfold PlacedOK at hp
            unfold rectDisjoint
            right; right; left
            dsimp only
            simp only [padding]
            omega
        · have hai : a = i := by simpa using ha'
          rcases List.mem_append.mp hb with hb' | hb'
          · rw [if_pos hai]
            rw [if_neg (hmem b hb')] at hmb ⊢
            have hp := hplaced b hb' hmb
            have hhb : 0 ≤ (rs.getD b noRect).h := (hgood b hmb).2.2
            unfold PlacedOK at hp
            unfold rectDisjoint
            right; right; right
            dsimp only
            simp only [padding]
            omega
          · have hbi : b = i := by simpa using hb'
            exact absurd (hai.trans hbi.symm) hne
    · rw [if_neg hwrap]
      dsimp only
      have hset : ∀ k, ((rs.set i { rs.getD i noRect with x := x, y := y }).getD k noRect)
          = if k = i then { rs.getD i noRect with x := x, y := y }
            else rs.getD k noRect := by
        intro k
        by_cases hk : k = i
        · rw [if_pos hk, hk, getD_set_self hi]
        · rw [if_neg hk, getD_set_ne (fun h => hk h.symm)]
      refine ⟨⟨⟨by omega, hy, le_trans hrh (le_max_left _ _)⟩, ?_, ?_⟩,
        by simp, fun k => by rw [hset k]; split <;> simp_all⟩
      · intro j hj hjm
        rw [hset j] at hjm ⊢
        rcases List.mem_append.mp hj with h | h
        · rw [if_neg (hmem j h)] at hjm ⊢
          exact PlacedOK_mono (by omega) (le_max_left _ _) (hplaced j h hjm)
        · have hji : j = i := by simpa using h
          rw [if_pos hji]
          have e1 : ({ rs.getD i noRect with x := x, y := y } : GlyphRect).x = x := rfl
          have e2 : ({ rs.getD i noRect with x := x, y := y } : GlyphRect).y = y := rfl
          have e3 : ({ rs.getD i noRect with x := x, y := y } : GlyphRect).w
              = (rs.getD i noRect).w := rfl
          have e4 : ({ rs.getD i noRect with x := x, y := y } : GlyphRect).h
              = (rs.getD i noRect).h := rfl
          unfold PlacedOK
          rw [e1, e2, e3, e4]
          have hmaxr := le_max_right rh (rs.getD i noRect).h
          refine ⟨by omega, by omega, by omega, by omega, fun _ => ⟨by omega, by omega⟩,
            fun hne => absurd rfl hne⟩
      · intro a ha b hb hne hma hmb
        rw [hset a] at hma ⊢
        rw [hset b] at hmb ⊢
        rcases List.mem_append.mp ha with ha' | ha'
        · rcases List.mem_append.mp hb with hb' | hb'
          · rw [if_neg (hmem a ha')] at hma ⊢
            rw [if_neg (hmem b hb')] at hmb ⊢
            exact hpair a ha' b hb' hne hma hmb
          · have hbi : b = i := by simpa using hb'
            rw [if_neg (hmem a ha')] at hma ⊢
            rw [if_pos hbi]
            have hp := hplaced a ha' hma
            unfold PlacedOK at hp
            unfold rectDisjoint
            dsimp only
            simp only [padding]
            by_cases hay : (rs.getD a noRect).y = y
            · left
              omega
            · right; right; left
              omega
        · have hai : a = i := by simpa using ha'
          rcases List.mem_append.mp hb with hb' | hb'
          · rw [if_pos hai]
            rw [if_neg (hmem b hb')] at hmb ⊢
            have hp := hplaced b hb' hmb
            unfold PlacedOK at hp
            unfold rectDisjoint
            dsimp only
            simp only [padding]
            by_cases hby : (rs.getD b noRect).y = y
            · right; left
              omega
            · right; right; right
              omega
          · have hbi : b = i := by simpa using hb'
            exact absurd (hai.trans hbi.symm) hne

theorem packFold_inv :
    ∀ (todo : List Nat) (rs : List GlyphRect) (x y rh : Int) (done : List Nat),
      PackInv rs x y rh done →
      (∀ k, GoodRect (rs.getD k noRect)) →
      (∀ i ∈ todo, i < rs.length ∧ i ∉ done) →
      todo.Nodup →
      PackInv (todo.foldl packStep (rs, x, y, rh)).1
        (todo.foldl packStep (rs, x, y, rh)).2.1
        (todo.foldl packStep (rs, x, y, rh)).2.2.1
        (todo.foldl packStep (rs, x, y, rh)).2.2.2 (done ++ todo) := by
  intro todo
  induction todo with
  | nil =>
    intro rs x y rh done hinv _ _ _
    simpa using hinv
  | cons i rest ih =>
    intro rs x y rh done hinv hgood hmem hnodup
    obtain ⟨hstep, hlen, hpres⟩ := packStep_inv rs x y rh done i hinv hgood
      (hmem i (by simp)).1 (hmem i (by simp)).2
    have hgood2 : ∀ k, GoodRect ((packStep (rs, x, y, rh) i).1.getD k noRect) := by
      intro k
      obtain ⟨h1, h2, h3⟩ := hpres k
      unfold GoodRect at *
      rw [h1, h2, h3]
      exact hgood k
    have hmem2 : ∀ j ∈ rest, j < (packStep (rs, x, y, rh) i).1.length ∧ j ∉ done ++ [i] := by
      intro j hj
      refine ⟨by rw [hlen]; exact (hmem j (by simp [hj])).1, ?_⟩
      intro hcontra
      rcases List.mem_append.mp hcontra with h | h
      · exact (hmem j (by simp [hj])).2 h
      · have : j = i := by simpa using h
        exact (List.nodup_cons.mp hnodup).1 (this ▸ hj)
    have := ih (packStep (rs, x, y, rh) i).1 (packStep (rs, x, y, rh) i).2.1
      (packStep (rs, x, y, rh) i).2.2.1 (packStep (rs, x, y, rh) i).2.2.2 (done ++ [i])
      hstep hgood2 hmem2 (List.nodup_cons.mp hnodup).2
    simpa [List.append_assoc] using this

/-- **C1 (amended).**  If every non-missing glyph box is well-formed and fits
a shelf of the fixed-width atlas with its padding (`0 ≤ w`,
`w + 2·padding ≤ 256`, `0 ≤ h`), then every non-missing rectangle the packer
assigns lies inside `[0, 256) × [0, height)` of the atlas, and any two
distinct non-missing rectangles are separated by at least 1 pixel of padding
(hence disjoint). -/
theorem packRects_spec (rects : List GlyphRect)
    (hgood : ∀ r ∈ rects, GoodRect r) :
    (∀ i, i < rects.length → ((packRects rects).1.getD i noRect).missing = false →
       rectInAtlas ((packRects rects).1.getD i noRect) (packRects rects).2) ∧
    (∀ i j, i < rects.length → j < rects.length → i ≠ j →
       ((packRects rects).1.getD i noRect).missing = false →
       ((packRects rects).1.getD j noRect).missing = false →
       rectDisjoint ((packRects rects).1.getD i noRect)
         ((packRects rects).1.getD j noRect)) := by
  have hgoodD : ∀ k, GoodRect (rects.getD k noRect) := by
    intro k
    by_cases hk : k < rects.length
    · have : rects.getD k noRect ∈ rects := by
        rw [List.getD_eq_getElem?_getD, List.getElem?_eq_getElem hk]
        exact List.getElem_mem hk
      exact hgood _ this
    · rw [List.getD_eq_getElem?_getD, List.getElem?_eq_none (by omega)]
      intro _
      exact ⟨le_refl 0, by norm_num [noRect, padding, atlasWidth], le_refl 0⟩
  have hperm : (List.insertionSort
      (fun i j => (rects.getD i noRect).h < (rects.getD j noRect).h)
      (List.range rects.length)).Perm (List.range rects.length) :=
    List.perm_insertionSort _ _
  have hsortmem : ∀ i ∈ List.insertionSort
      (fun i j => (rects.getD i noRect).h < (rects.getD j noRect).h)
      (List.range rects.length), i < rects.length ∧ i ∉ ([] : List Nat) := by
    intro i hi
    exact ⟨List.mem_range.mp (hperm.mem_iff.mp hi), by simp⟩
  have hnodup : (List.insertionSort
      (fun i j => (rects.getD i noRect).h < (rects.getD j noRect).h)
      (List.range rects.length)).Nodup :=
    hperm.symm.nodup (List.nodup_range rects.length)
  have hinit : PackInv rects padding padding 0 [] := by
    refine ⟨⟨by norm_num [padding], by norm_num [padding], le_refl 0⟩, ?_, ?_⟩
    · intro i hi
      cases hi
    · intro i hi
      cases hi
  have hfold := packFold_inv _ rects padding padding 0 [] hinit hgoodD hsortmem hnodup
  have hidx : ∀ i, i < rects.length → i ∈ List.insertionSort
      (fun i j => (rects.getD i noRect).h < (rects.getD j noRect).h)
      (List.range rects.length) := by
    intro i hi
    exact hperm.mem_iff.mpr (List.mem_range.mpr hi)
  rcases hE : List.foldl packStep (rects, padding, padding, (0:Int))
      (List.insertionSort (fun i j => (rects.getD i noRect).h < (rects.getD j noRect).h)
        (List.range rects.length)) with ⟨rs2, x2, y2, rh2⟩
  rw [hE] at hfold
  dsimp only at hfold
  obtain ⟨⟨hx, hy, hrh⟩, hplaced, hpair⟩ := hfold
  simp only [List.nil_append] at hplaced hpair
  have hpack : packRects rects = (rs2, y2 + rh2 + padding) := by
    simp only [packRects]
    rw [hE]
  rw [hpack]
  dsimp only
  constructor
  · intro i hi hmiss
    have hp := hplaced i (hidx i hi) hmiss
    unfold PlacedOK at hp
    unfold rectInAtlas
    simp only [atlasWidth, padding] at *
    omega
  · intro i j hi hj hne hmi hmj
    exact hpair i (hidx i hi) j (hidx j hj) hne hmi hmj

/-- **C1 counterexample.**  For a single non-missing 300×10 box the claim as
stated fails: the packer wraps to a fresh shelf and then places the rectangle
at x = 1 regardless of width, so its footprint `[1, 301)` leaves the fixed
256-pixel-wide atlas. -/
theorem packRects_too_wide_escapes :
    ((packRects [{ x := 0, y := 0, w := 300, h := 10, missing := false }]).1.getD 0
        noRect).missing = false ∧
    ¬ rectInAtlas
        ((packRects [{ x := 0, y := 0, w := 300, h := 10, missing := false }]).1.getD 0 noRect)
        (packRects [{ x := 0, y := 0, w := 300, h := 10, missing := false }]).2 := by
  constructor
  · rfl
  · intro h
    obtain ⟨-, h2, -, -⟩ := h
    revert h2
    decide

theorem getD_append_lt {α : Type} (d : α) :
    ∀ (l1 l2 : List α) (i : Nat), i < l1.length → (l1 ++ l2).getD i d = l1.getD i d := by
  intro l1
  induction l1 with
  | nil => intro l2 i hi; simp at hi
  | cons a t ih =>
    intro l2 i hi
    cases i with
    | zero => rfl
    | succ n => simpa using ih l2 n (by simpa using hi)

theorem getD_append_len {α : Type} (d : α) :
    ∀ (l1 : List α) (a : α) (l2 : List α), (l1 ++ a :: l2).getD l1.length d = a := by
  intro l1
  induction l1 with
  | nil => intro a l2; rfl
  | cons b t ih => intro a l2; simpa using ih a l2

theorem IsFirstZero_unique {g : Nat → Nat} {a b : Nat}
    (ha : IsFirstZero g a) (hb : IsFirstZero g b) : a = b := by
  obtain ⟨ha0, hamin⟩ := ha
  obtain ⟨hb0, hbmin⟩ := hb
  by_contra hne
  rcases Nat.lt_or_ge a b with h | h
  · exact hbmin a h ha0
  · exact hamin b (by omega) hb0

/-- The missing-flag pattern produced by the `getGlyphRects` loop from start
index `k` with `has_missing_glyph = hm`. -/
theorem getGlyphRectsGo_spec (g : Nat → Nat) (boxOf : Nat → Box) :
    ∀ (m k : Nat) (hm : Bool), (hm = true ↔ ∃ i, i < k ∧ g i = 0) →
      (getGlyphRectsGo g boxOf (List.range' k m) hm).length = m ∧
      (∀ t, t < m →
        (((getGlyphRectsGo g boxOf (List.range' k m) hm).getD t noRect).missing = true
          ↔ (g (k+t) = 0 ∧ ∃ i, i < k + t ∧ g i = 0))) := by
  intro m
  induction m with
  | zero =>
    intro k hm _
    exact ⟨rfl, fun t ht => absurd ht (by omega)⟩
  | succ m ih =>
    intro k hm hhm
    rw [List.range'_succ, getGlyphRectsGo]
    by_cases hc : g k = 0 ∧ hm = true
    · rw [if_pos hc]
      have ihk := ih (k+1) hm (by
        constructor
        · intro h
          obtain ⟨i, hi, hgi⟩ := hhm.mp h
          exact ⟨i, by omega, hgi⟩
        · intro _
          exact hc.2)
      refine ⟨by simpa using ihk.1, ?_⟩
      intro t ht
      cases t with
      | zero =>
        simp only [List.getD_cons_zero]
        constructor
        · intro _
          obtain ⟨i, hi, hgi⟩ := hhm.mp hc.2
          exact ⟨by simpa using hc.1, i, by omega, hgi⟩
        · intro _
          trivial
      | succ t =>
        simp only [List.getD_cons_succ]
        have := ihk.2 t (by omega)
        constructor
        · intro h
          obtain ⟨h1, i, hi, hgi⟩ := this.mp h
          exact ⟨by rw [show k + (t+1) = k+1+t from by omega]; exact h1, i, by omega, hgi⟩
        · intro ⟨h1, i, hi, hgi⟩
          exact this.mpr ⟨by rw [show k+1+t = k + (t+1) from by omega]; exact h1,
            i, by omega, hgi⟩
    · rw [if_neg hc]
      have ihk := ih (k+1) (hm || decide (g k = 0)) (by
        constructor
        · intro h
          rcases Bool.or_eq_true_iff.mp h with h | h
          · obtain ⟨i, hi, hgi⟩ := hhm.mp h
            exact ⟨i, by omega, hgi⟩
          · exact ⟨k, by omega, of_decide_eq_true h⟩
        · intro ⟨i, hi, hgi⟩
          rcases Nat.lt_or_ge i k with h | h
          · exact Bool.or_eq_true_iff.mpr (Or.inl (hhm.mpr ⟨i, h, hgi⟩))
          · have : i = k := by omega
            exact Bool.or_eq_true_iff.mpr (Or.inr (decide_eq_true (this ▸ hgi))))
      refine ⟨by simpa using ihk.1, ?_⟩
      intro t ht
      cases t with
      | zero =>
        simp only [List.getD_cons_zero]
        constructor
        · intro h
          cases h
        · intro ⟨h1, i, hi, hgi⟩
          exact absurd ⟨h1, hhm.mpr ⟨i, hi, hgi⟩⟩ hc
      | succ t =>
        simp only [List.getD_cons_succ]
        have := ihk.2 t (by omega)
        constructor
        · intro h
          obtain ⟨h1, i, hi, hgi⟩ := this.mp h
          exact ⟨by rw [show k + (t+1) = k+1+t from by omega]; exact h1, i, by omega, hgi⟩
        · intro ⟨h1, i, hi, hgi⟩
          exact this.mpr ⟨by rw [show k+1+t = k + (t+1) from by omega]; exact h1,
            i, by omega, hgi⟩

theorem getGlyphRects_scheme (g : Nat → Nat) (boxOf : Nat → Box) :
    (getGlyphRects g boxOf).length = charCount ∧
    FirstMissingScheme g (getGlyphRects g boxOf) := by
  have h := getGlyphRectsGo_spec g boxOf charCount 0 false (by simp)
  unfold getGlyphRects
  rw [List.range_eq_range']
  refine ⟨h.1, ?_⟩
  intro j hj
  rw [h.1] at hj
  simpa using h.2 j hj

theorem packStep_preserves (acc : List GlyphRect × Int × Int × Int) (i : Nat) :
    (packStep acc i).1.length = acc.1.length ∧
    (∀ k, ((packStep acc i).1.getD k noRect).missing = (acc.1.getD k noRect).missing) := by
  obtain ⟨rs, x, y, rh⟩ := acc
  simp only [packStep]
  by_cases hm : (rs.getD i noRect).missing = true
  · rw [if_pos hm]
    exact ⟨rfl, fun k => rfl⟩
  · rw [if_neg hm]
    have hone : ∀ (r2 : GlyphRect), r2.missing = (rs.getD i noRect).missing →
        ∀ k, ((rs.set i r2).getD k noRect).missing = (rs.getD k noRect).missing := by
      intro r2 hr2 k
      by_cases hik : i < rs.length
      · by_cases hk : k = i
        · rw [hk, getD_set_self hik, hr2]
        · rw [getD_set_ne (fun h => hk h.symm)]
      · rw [List.set_eq_of_length_le (by omega)]
    by_cases hw : x + (rs.getD i noRect).w + padding > atlasWidth
    · rw [if_pos hw]
      exact ⟨by simp, hone _ rfl⟩
    · rw [if_neg hw]
      exact ⟨by simp, hone _ rfl⟩

theorem packFold_preserves :
    ∀ (todo : List Nat) (acc : List GlyphRect × Int × Int × Int),
      ((todo.foldl packStep acc).1.length = acc.1.length) ∧
      (∀ k, ((todo.foldl packStep acc).1.getD k noRect).missing
          = (acc.1.getD k noRect).missing) := by
  intro todo
  induction todo with
  | nil => intro acc; exact ⟨rfl, fun k => rfl⟩
  | cons i rest ih =>
    intro acc
    have h1 := packStep_preserves acc i
    have h2 := ih (packStep acc i)
    exact ⟨by rw [List.foldl_cons, h2.1, h1.1], fun k => by
      rw [List.foldl_cons, h2.2 k, h1.2 k]⟩

theorem packRects_preserves (rects : List GlyphRect) :
    (packRects rects).1.length = rects.length ∧
    (∀ k, ((packRects rects).1.getD k noRect).missing = (rects.getD k noRect).missing) := by
  rcases hE : List.foldl packStep (rects, padding, padding, (0:Int))
      (List.insertionSort (fun i j => (rects.getD i noRect).h < (rects.getD j noRect).h)
        (List.range rects.length)) with ⟨rs2, x2, y2, rh2⟩
  have h := packFold_preserves (List.insertionSort
      (fun i j => (rects.getD i noRect).h < (rects.getD j noRect).h)
      (List.range rects.length)) (rects, padding, padding, (0:Int))
  rw [hE] at h
  have hpack : packRects rects = (rs2, y2 + rh2 + padding) := by
    simp only [packRects]
    rw [hE]
  rw [hpack]
  exact h

/-- The induction core of `renderGlyphs`: sweeping indices `k … k+m-1` with
positions `ps` built for `0 … k-1` and `missing_glyph` state `mg` consistent
with the first-missing scheme.  Produces the appended positions and the list
of rasterization calls, with: missing characters copy the first missing
character's position and are never rasterized; non-missing characters are
rasterized exactly once. -/
theorem renderGlyphsGo_spec (g : Nat → Nat) (boxOf : Nat → Box) (advOf : Nat → Nat)
    (scale : ℚ) (rects : List GlyphRect) (hscheme : FirstMissingScheme g rects) :
    ∀ (m k : Nat) (ps : List CharPosition) (mg : Option Nat) (ev : List (Nat × Nat)),
      k + m ≤ rects.length →
      ps.length = k →
      (∀ m0, mg = some m0 → IsFirstZero g m0 ∧ m0 < k) →
      (mg = none → ∀ i, i < k → g i ≠ 0) →
      ∃ tail evtail,
        renderGlyphsGo g boxOf advOf scale rects (List.range' k m) ps mg ev
          = .ok (ps ++ tail, ev ++ evtail) ∧
        tail.length = m ∧
        (∀ t, t < m → (rects.getD (k+t) noRect).missing = true →
           ∃ m0, IsFirstZero g m0 ∧ m0 < k + t ∧
             (ps ++ tail).getD (k+t) noPos = (ps ++ tail).getD m0 noPos) ∧
        (∀ p ∈ evtail, ∃ t, t < m ∧ (rects.getD (k+t) noRect).missing = false ∧
           p = (k+t, g (k+t))) ∧
        (∀ t, t < m → (rects.getD (k+t) noRect).missing = false →
           (k+t, g (k+t)) ∈ evtail) := by
  intro m
  induction m with
  | zero =>
    intro k ps mg ev _ _ _ _
    refine ⟨[], [], by simp [renderGlyphsGo], rfl, ?_, ?_, ?_⟩
    · intro t ht; omega
    · intro p hp; simp at hp
    · intro t ht; omega
  | succ m ih =>
    intro k ps mg ev hkm hps hmg hnone
    rw [List.range'_succ]
    simp only [renderGlyphsGo]
    by_cases hmiss : (rects.getD k noRect).missing = true
    · rw [if_pos hmiss]
      have hk : k < rects.length := by omega
      have hsch := (hscheme k hk).mp hmiss
      obtain ⟨m0, hm0⟩ : ∃ m0, mg = some m0 := by
        cases hcase : mg with
        | none =>
          obtain ⟨i, hi, hgi⟩ := hsch.2
          exact absurd hgi (hnone hcase i hi)
        | some m0 => exact ⟨m0, rfl⟩
      rw [hm0]
      obtain ⟨hfz, hm0k⟩ := hmg m0 hm0
      have ihk := ih (k+1) (ps ++ [ps.getD m0 noPos]) (some m0) ev
        (by omega) (by simp [hps]) (fun m1 h1 => by
          injection h1 with h1
          exact ⟨h1 ▸ hfz, by omega⟩)
        (by intro h; cases h)
      obtain ⟨tail, evtail, heq, hlen, hcopy, hev, hren⟩ := ihk
      refine ⟨ps.getD m0 noPos :: tail, evtail, ?_, by simpa using hlen, ?_, ?_, ?_⟩
      · show renderGlyphsGo g boxOf advOf scale rects (List.range' (k+1) m)
            (ps ++ [ps.getD m0 noPos]) (some m0) ev
          = .ok (ps ++ ps.getD m0 noPos :: tail, ev ++ evtail)
        rw [heq]
        simp
      · intro t ht
        cases t with
        | zero =>
          intro _
          refine ⟨m0, hfz, by omega, ?_⟩
          have h1 : (ps ++ ps.getD m0 noPos :: tail).getD (k+0) noPos
              = ps.getD m0 noPos := by
            have : k + 0 = ps.length := by omega
            rw [this, getD_append_len]
          have h2 : (ps ++ ps.getD m0 noPos :: tail).getD m0 noPos = ps.getD m0 noPos := by
            rw [getD_append_lt _ _ _ m0 (by omega)]
          rw [h1, h2]
        | succ t =>
          intro hmt
          have := hcopy t (by omega) (by
            rw [show k + (t+1) = k+1+t from by omega] at hmt
            exact hmt)
          obtain ⟨m1, hfz1, hlt1, heq1⟩ := this
          refine ⟨m1, hfz1, by omega, ?_⟩
          have hassoc : ps ++ ps.getD m0 noPos :: tail
              = (ps ++ [ps.getD m0 noPos]) ++ tail := by simp
          rw [hassoc]
          have : k + (t + 1) = k + 1 + t := by omega
          rw [this]
          exact heq1
      · intro p hp
        obtain ⟨t, ht, hmt, hpt⟩ := hev p hp
        exact ⟨t+1, by omega, by rw [show k + (t+1) = k+1+t by omega]; exact hmt,
          by rw [show k + (t+1) = k+1+t by omega]; exact hpt⟩
      · intro t ht hmt
        cases t with
        | zero =>
          have hmt2 : (rects.getD k noRect).missing = false := hmt
          rw [hmt2] at hmiss
          exact absurd hmiss (by decide)
        | succ t =>
          have := hren t (by omega) (by rw [show k+1+t = k + (t+1) by omega]; exact hmt)
          rw [show k + (t+1) = k+1+t by omega]
          exact this
    · rw [if_neg hmiss]
      have hk : k < rects.length := by omega
      have hmf : (rects.getD k noRect).missing = false := by
        cases h : (rects.getD k noRect).missing
        · rfl
        · exact absurd h hmiss
      set cp : CharPosition :=
        { x0 := (rects.getD k noRect).x, y0 := (rects.getD k noRect).y,
          x1 := (rects.getD k noRect).x + (rects.getD k noRect).w,
          y1 := (rects.getD k noRect).y + (rects.getD k noRect).h,
          xadvance := scale * (advOf (g k) : ℚ),
          xoff := (boxOf (g k)).x0, yoff := (boxOf (g k)).y0 } with hcp
      have hmg2 : ∀ m1, (if g k = 0 then some k else mg) = some m1 →
          IsFirstZero g m1 ∧ m1 < k + 1 := by
        intro m1 h1
        by_cases hz : g k = 0
        · rw [if_pos hz] at h1
          injection h1 with h1
          subst h1
          have hnex : ¬ ∃ i, i < k ∧ g i = 0 := by
            intro ⟨i, hi, hgi⟩
            exact absurd ((hscheme k hk).mpr ⟨hz, i, hi, hgi⟩) (by rw [hmf]; decide)
          refine ⟨⟨hz, fun i2 hi2 hgi2 => hnex ⟨i2, hi2, hgi2⟩⟩, by omega⟩
        · rw [if_neg hz] at h1
          have := hmg m1 h1
          exact ⟨this.1, by omega⟩
      have hnone2 : (if g k = 0 then some k else mg) = none →
          ∀ i, i < k + 1 → g i ≠ 0 := by
        intro h1 i hi
        by_cases hz : g k = 0
        · rw [if_pos hz] at h1
          cases h1
        · rw [if_neg hz] at h1
          rcases Nat.lt_or_ge i k with h | h
          · exact hnone h1 i h
          · have : i = k := by omega
            rw [this]
            exact hz
      have ihk := ih (k+1) (ps ++ [cp]) (if g k = 0 then some k else mg)
        (ev ++ [(k, g k)]) (by omega) (by simp [hps]) hmg2 hnone2
      obtain ⟨tail, evtail, heq, hlen, hcopy, hev, hren⟩ := ihk
      refine ⟨cp :: tail, (k, g k) :: evtail, ?_, by simpa using hlen, ?_, ?_, ?_⟩
      · rw [heq]
        simp
      · intro t ht
        cases t with
        | zero =>
          intro hmt
          exact absurd (show (rects.getD k noRect).missing = true from hmt) hmiss
        | succ t =>
          intro hmt
          have := hcopy t (by omega) (by rw [show k+1+t = k + (t+1) by omega]; exact hmt)
          obtain ⟨m1, hfz1, hlt1, heq1⟩ := this
          refine ⟨m1, hfz1, by omega, ?_⟩
          have hassoc : ps ++ cp :: tail = (ps ++ [cp]) ++ tail := by simp
          rw [hassoc, show k + (t + 1) = k + 1 + t by omega]
          exact heq1
      · intro p hp
        rcases List.mem_cons.mp hp with h | h
        · exact ⟨0, by omega, by simpa using hmf, by simpa using h⟩
        · obtain ⟨t, ht, hmt, hpt⟩ := hev p h
          exact ⟨t+1, by omega, by rw [show k + (t+1) = k+1+t by omega]; exact hmt,
            by rw [show k + (t+1) = k+1+t by omega]; exact hpt⟩
      · intro t ht hmt
        cases t with
        | zero => simp
        | succ t =>
          have := hren t (by omega) (by rw [show k+1+t = k + (t+1) by omega]; exact hmt)
          rw [show k + (t+1) = k+1+t by omega]
          exact List.mem_cons.mpr (Or.inr this)

/-- **C10.**  In the pipeline of `getTTFAtlas` — `getGlyphRects`, then
`packRects`, then `renderGlyphs`, all reading the same per-character glyph-ID
assignment `g` — the `OrderingError` branch ("Missing glyph encountered too
early") of `renderGlyphs` is unreachable: `getGlyphRects` leaves the first
unmapped character unmarked, so every index marked missing is preceded by a
smaller unmapped index that has already set `missing_glyph`. -/
theorem renderGlyphs_no_orderingError (g : Nat → Nat) (boxOf : Nat → Box)
    (advOf : Nat → Nat) (scale : ℚ) :
    exceptOk (renderGlyphs g boxOf advOf scale (packRects (getGlyphRects g boxOf)).1)
      = true := by
  have hlen0 := (getGlyphRects_scheme g boxOf).1
  have hsch0 := (getGlyphRects_scheme g boxOf).2
  have hpres := packRects_preserves (getGlyphRects g boxOf)
  have hscheme : FirstMissingScheme g (packRects (getGlyphRects g boxOf)).1 := by
    intro j hj
    rw [hpres.2 j]
    exact hsch0 j (by omega)
  have hmain := renderGlyphsGo_spec g boxOf advOf scale
    (packRects (getGlyphRects g boxOf)).1 hscheme
    (packRects (getGlyphRects g boxOf)).1.length 0 [] none []
    (by omega) rfl (fun m0 h => by cases h) (fun _ i hi => absurd hi (by omega))
  obtain ⟨tail, evtail, heq, -⟩ := hmain
  unfold renderGlyphs
  rw [List.range_eq_range', heq]
  rfl

/-- **C5.**  All characters mapping to glyph ID 0 after the first such
character receive exactly the CharPosition of the first-encountered missing
character `i0` (whose rectangle holds the rasterized notdef: the event
`(i0, 0)` records that physical rasterization), and no subsequent missing
character is rasterized again (its index never appears among the
`renderGlyph` calls). -/
theorem renderGlyphs_missing_shares_notdef (g : Nat → Nat) (boxOf : Nat → Box)
    (advOf : Nat → Nat) (scale : ℚ) (j i0 : Nat)
    (hj : j < charCount) (hgj : g j = 0) (hprev : ∃ i, i < j ∧ g i = 0)
    (hfirst : IsFirstZero g i0) :
    (okPositions (renderGlyphs g boxOf advOf scale
        (packRects (getGlyphRects g boxOf)).1)).getD j noPos
      = (okPositions (renderGlyphs g boxOf advOf scale
        (packRects (getGlyphRects g boxOf)).1)).getD i0 noPos ∧
    (i0, 0) ∈ okEvents (renderGlyphs g boxOf advOf scale
        (packRects (getGlyphRects g boxOf)).1) ∧
    j ∉ (okEvents (renderGlyphs g boxOf advOf scale
        (packRects (getGlyphRects g boxOf)).1)).map Prod.fst := by
  have hlen0 := (getGlyphRects_scheme g boxOf).1
  have hsch0 := (getGlyphRects_scheme g boxOf).2
  have hpres := packRects_preserves (getGlyphRects g boxOf)
  have hlen : (packRects (getGlyphRects g boxOf)).1.length = charCount := by
    rw [hpres.1, hlen0]
  have hscheme : FirstMissingScheme g (packRects (getGlyphRects g boxOf)).1 := by
    intro t ht
    rw [hpres.2 t]
    exact hsch0 t (by omega)
  have hmain := renderGlyphsGo_spec g boxOf advOf scale
    (packRects (getGlyphRects g boxOf)).1 hscheme
    (packRects (getGlyphRects g boxOf)).1.length 0 [] none []
    (by omega) rfl (fun m0 h => by cases h) (fun _ i hi => absurd hi (by omega))
  obtain ⟨tail, evtail, heq, hlent, hcopy, hev, hren⟩ := hmain
  have hrg : renderGlyphs g boxOf advOf scale (packRects (getGlyphRects g boxOf)).1
      = .ok (tail, evtail) := by
    unfold renderGlyphs
    rw [List.range_eq_range', heq]
    simp
  rw [hrg]
  have hjn : j < (packRects (getGlyphRects g boxOf)).1.length := by omega
  have hmissj : ((packRects (getGlyphRects g boxOf)).1.getD j noRect).missing = true :=
    (hscheme j hjn).mpr ⟨hgj, hprev⟩
  have hi0j : i0 ≤ j := by
    by_contra hlt
    exact hfirst.2 j (by omega) hgj
  have hi0n : i0 < (packRects (getGlyphRects g boxOf)).1.length := by omega
  have hmissi0 : ((packRects (getGlyphRects g boxOf)).1.getD i0 noRect).missing = false := by
    cases h : ((packRects (getGlyphRects g boxOf)).1.getD i0 noRect).missing
    · rfl
    · obtain ⟨-, i, hi, hgi⟩ := (hscheme i0 hi0n).mp h
      exact absurd hgi (hfirst.2 i hi)
  refine ⟨?_, ?_, ?_⟩
  · obtain ⟨m0, hfz0, -, heq0⟩ := hcopy j hjn (by simpa using hmissj)
    have hm0 : m0 = i0 := IsFirstZero_unique hfz0 hfirst
    subst hm0
    simpa using heq0
  · have h5 := hren i0 hi0n (by simpa using hmissi0)
    simp only [Nat.zero_add] at h5
    rw [hfirst.1] at h5
    simpa using h5
  · intro hmem
    obtain ⟨p, hp, hfst⟩ := List.mem_map.mp hmem
    obtain ⟨t, ht, hmtf, hpt⟩ := hev p hp
    rw [hpt] at hfst
    have : t = j := by simpa using hfst
    subst this
    rw [show (0:Nat) + t = t from by omega] at hmtf
    rw [hmtf] at hmissj
    exact absurd hmissj (by decide)

/-- Witness for `renderGlyphs_missing_shares_notdef`: glyph assignment `gW`
leaves characters 1 and 3 unmapped; the first missing character is 1 and
character 3 shares its position and is never rasterized. -/
theorem renderGlyphs_missing_shares_notdef_witness :
    (3 < charCount) ∧ gW 3 = 0 ∧ (1 < 3 ∧ gW 1 = 0) ∧ IsFirstZero gW 1 ∧
    ((okPositions (renderGlyphs gW boxW advW 1
        (packRects (getGlyphRects gW boxW)).1)).getD 3 noPos
      = (okPositions (renderGlyphs gW boxW advW 1
        (packRects (getGlyphRects gW boxW)).1)).getD 1 noPos ∧
    (1, 0) ∈ okEvents (renderGlyphs gW boxW advW 1
        (packRects (getGlyphRects gW boxW)).1) ∧
    3 ∉ (okEvents (renderGlyphs gW boxW advW 1
        (packRects (getGlyphRects gW boxW)).1)).map Prod.fst) :=
  have hfz : IsFirstZero gW 1 :=
    ⟨rfl, fun i2 hi2 => by
      have : i2 = 0 := by omega
      subst this
      decide⟩
  ⟨by decide, rfl, ⟨by decide, rfl⟩, hfz,
   renderGlyphs_missing_shares_notdef gW boxW advW 1 3 1 (by decide) rfl
     ⟨1, by decide, rfl⟩ hfz⟩

/-- Witness for `packRects_spec`: two well-formed boxes are packed in bounds
and with padding between them. -/
theorem packRects_spec_witness :
    GoodRect { x := 0, y := 0, w := 10, h := 5, missing := false } ∧
    GoodRect { x := 0, y := 0, w := 20, h := 7, missing := false } ∧
    rectInAtlas
      ((packRects [{ x := 0, y := 0, w := 10, h := 5, missing := false },
                   { x := 0, y := 0, w := 20, h := 7, missing := false }]).1.getD 0 noRect)
      (packRects [{ x := 0, y := 0, w := 10, h := 5, missing := false },
                  { x := 0, y := 0, w := 20, h := 7, missing := false }]).2 ∧
    rectDisjoint
      ((packRects [{ x := 0, y := 0, w := 10, h := 5, missing := false },
                   { x := 0, y := 0, w := 20, h := 7, missing := false }]).1.getD 0 noRect)
      ((packRects [{ x := 0, y := 0, w := 10, h := 5, missing := false },
                   { x := 0, y := 0, w := 20, h := 7, missing := false }]).1.getD 1 noRect) :=
  have hgood : ∀ r ∈ [({ x := 0, y := 0, w := 10, h := 5, missing := false } : GlyphRect),
      { x := 0, y := 0, w := 20, h := 7, missing := false }], GoodRect r := by
    intro r hr
    rcases List.mem_cons.mp hr with rfl | hr
    · exact fun _ => ⟨by decide, by decide, by decide⟩
    rcases List.mem_cons.mp hr with rfl | hr
    · exact fun _ => ⟨by decide, by decide, by decide⟩
    · cases hr
  ⟨fun _ => ⟨by decide, by decide, by decide⟩,
   fun _ => ⟨by decide, by decide, by decide⟩,
   (packRects_spec _ hgood).1 0 (by decide) (by decide),
   (packRects_spec _ hgood).2 0 1 (by decide) (by decide) (by decide)
     (by decide) (by decide)⟩

theorem getD_append_add {α : Type} (d : α) :
    ∀ (l1 l2 : List α) (t : Nat), (l1 ++ l2).getD (l1.length + t) d = l2.getD t d := by
  intro l1
  induction l1 with
  | nil => intro l2 t; simp
  | cons a l1 ih =>
    intro l2 t
    have : (a :: l1).length + t = (l1.length + t) + 1 := by simp; omega
    rw [this]
    simpa using ih l2 t

theorem map_getD_lt {α β : Type} (da : α) (db : β) (f : α → β) :
    ∀ (l : List α) (t : Nat), t < l.length → (l.map f).getD t db = f (l.getD t da) := by
  intro l
  induction l with
  | nil => intro t ht; simp at ht
  | cons a l ih =>
    intro t ht
    cases t with
    | zero => rfl
    | succ n => simpa using ih n (by simpa using ht)

/-- The F2Dot14 identity transform with zero offset is the identity on
in-range `int16` vertices. -/
theorem transformV_id (v : Vertex)
    (hr : -32768 ≤ v.x ∧ v.x ≤ 32767 ∧ -32768 ≤ v.y ∧ v.y ≤ 32767 ∧
          -32768 ≤ v.cx ∧ v.cx ≤ 32767 ∧ -32768 ≤ v.cy ∧ v.cy ≤ 32767) :
    transformV 16384 0 0 16384 0 0 v = v := by
  obtain ⟨x, y, cx, cy, ty⟩ := v
  simp only [transformV, Vertex.mk.injEq]
  dsimp only at hr
  have key : ∀ z : Int, -32768 ≤ z → z ≤ 32767 →
      wrap16 (sar14 (16384 * z + 0)) = z := by
    intro z h1 h2
    have : (16384 : Int) * z + 0 = 16384 * z := by ring
    rw [this]
    unfold sar14
    rw [Int.mul_fdiv_cancel_left z (by norm_num)]
    unfold wrap16
    omega
  refine ⟨?_, ?_, ?_, ?_, trivial⟩
  · have : (16384:Int) * x + 0 * y + 0 = 16384 * x + 0 := by ring
    rw [this]; exact key x (by omega) (by omega)
  · have : (0:Int) * x + 16384 * y + 0 = 16384 * y + 0 := by ring
    rw [this]; exact key y (by omega) (by omega)
  · have : (16384:Int) * cx + 0 * cy + 0 = 16384 * cx + 0 := by ring
    rw [this]; exact key cx (by omega) (by omega)
  · have : (0:Int) * cx + 16384 * cy + 0 = 16384 * cy + 0 := by ring
    rw [this]; exact key cy (by omega) (by omega)

/-- The F2Dot14 identity transform with pre-scaled offset `100·16384`
shifts in-range x-coordinates by exactly 100 font units. -/
theorem transformV_shift (v : Vertex)
    (hr : -32768 ≤ v.x ∧ v.x ≤ 32667 ∧ -32768 ≤ v.y ∧ v.y ≤ 32767 ∧
          -32768 ≤ v.cx ∧ v.cx ≤ 32667 ∧ -32768 ≤ v.cy ∧ v.cy ≤ 32767) :
    transformV 16384 0 0 16384 1638400 0 v
      = { v with x := v.x + 100, cx := v.cx + 100 } := by
  obtain ⟨x, y, cx, cy, ty⟩ := v
  simp only [transformV, Vertex.mk.injEq]
  dsimp only at hr ⊢
  have key : ∀ z : Int, -32768 ≤ z → z ≤ 32667 →
      wrap16 (sar14 (16384 * z + 1638400)) = z + 100 := by
    intro z h1 h2
    have : (16384 : Int) * z + 1638400 = 16384 * (z + 100) := by ring
    rw [this]
    unfold sar14
    rw [Int.mul_fdiv_cancel_left (z + 100) (by norm_num)]
    unfold wrap16
    omega
  have keyy : ∀ z : Int, -32768 ≤ z → z ≤ 32767 →
      wrap16 (sar14 (16384 * z + 0)) = z := by
    intro z h1 h2
    have : (16384 : Int) * z + 0 = 16384 * z := by ring
    rw [this]
    unfold sar14
    rw [Int.mul_fdiv_cancel_left z (by norm_num)]
    unfold wrap16
    omega
  refine ⟨?_, ?_, ?_, ?_, trivial⟩
  · have : (16384:Int) * x + 0 * y + 1638400 = 16384 * x + 1638400 := by ring
    rw [this]; exact key x (by omega) (by omega)
  · have : (0:Int) * x + 16384 * y + 0 = 16384 * y + 0 := by ring
    rw [this]; exact keyy y (by omega) (by omega)
  · have : (16384:Int) * cx + 0 * cy + 1638400 = 16384 * cx + 1638400 := by ring
    rw [this]; exact key cx (by omega) (by omega)
  · have : (0:Int) * cx + 16384 * cy + 0 = 16384 * cy + 0 := by ring
    rw [this]; exact keyy cy (by omega) (by omega)

/-- **C6 (amended).**  A composite glyph of two identical components (same
component glyph ID `K` decoding to `V`) with identity F2Dot14 matrices at XY
offsets (0,0) and (100,0) decodes to a vertex buffer of exactly twice the
component's vertex count whose second half repeats the first with
x-coordinates shifted by +100 font units and y-coordinates unchanged —
provided every component x-coordinate stays at most 32667, so that the +100
shift does not overflow the `int16_t` vertex storage. -/
theorem compound_two_components (dta : Bytes) (info : TTFData) (f : Nat)
    (G K g : Nat) (V : List Vertex)
    (hoff : getGlyfOffset dta info G = some g)
    (hnc : readInt16 dta g = -1)
    (h1 : readUint16 dta (g + 10) = 35)
    (h2 : readUint16 dta (g + 12) = K)
    (h3 : readInt16 dta (g + 14) = 0)
    (h4 : readInt16 dta (g + 16) = 0)
    (h5 : readUint16 dta (g + 18) = 3)
    (h6 : readUint16 dta (g + 20) = K)
    (h7 : readInt16 dta (g + 22) = 100)
    (h8 : readInt16 dta (g + 24) = 0)
    (hcomp : getGlyphVerticesF dta info (f+1) K = .ok V)
    (hrange : ∀ v ∈ V, -32768 ≤ v.x ∧ v.x ≤ 32667 ∧ -32768 ≤ v.y ∧ v.y ≤ 32767 ∧
      -32768 ≤ v.cx ∧ v.cx ≤ 32667 ∧ -32768 ≤ v.cy ∧ v.cy ≤ 32767) :
    getGlyphVerticesF dta info (f+1+1) G
      = .ok (V ++ V.map (fun v => { v with x := v.x + 100, cx := v.cx + 100 })) ∧
    (okVerts (getGlyphVerticesF dta info (f+1+1) G)).length = 2 * V.length ∧
    (∀ t, t < V.length →
      ((okVerts (getGlyphVerticesF dta info (f+1+1) G)).getD (V.length + t) noVert).x
        = ((okVerts (getGlyphVerticesF dta info (f+1+1) G)).getD t noVert).x + 100 ∧
      ((okVerts (getGlyphVerticesF dta info (f+1+1) G)).getD (V.length + t) noVert).y
        = ((okVerts (getGlyphVerticesF dta info (f+1+1) G)).getD t noVert).y) := by
  have hmap1 : V.map (transformV 16384 0 0 16384 0 0) = V := by
    have hpt : ∀ v ∈ V, transformV 16384 0 0 16384 0 0 v = v := by
      intro v hv
      have hr := hrange v hv
      exact transformV_id v ⟨hr.1, by omega, hr.2.2.1, hr.2.2.2.1, hr.2.2.2.2.1,
        by omega, hr.2.2.2.2.2.2.1, hr.2.2.2.2.2.2.2⟩
    rw [List.map_congr_left hpt]
    simp
  have hmap2 : V.map (transformV 16384 0 0 16384 1638400 0)
      = V.map (fun v => { v with x := v.x + 100, cx := v.cx + 100 }) := by
    apply List.map_congr_left
    intro v hv
    exact transformV_shift v (hrange v hv)
  have hmax : max (16384 : Int) 0 = 16384 := by decide
  have hmax2 : max (0 : Int) 16384 = 16384 := by decide
  have hmain : getGlyphVerticesF dta info (f+1+1) G
      = .ok (V ++ V.map (fun v => { v with x := v.x + 100, cx := v.cx + 100 })) := by
    rw [getGlyphVerticesF, hoff]
    simp only [hnc]
    rw [if_neg (by norm_num : ¬ ((0:Int) ≤ -1))]
    rw [compoundGoF, h1]
    simp only [show g + 10 + 2 = g + 12 from by omega, show g + 10 + 4 = g + 14 from by omega,
      show g + 14 + 2 = g + 16 from by omega, show g + 14 + 4 = g + 18 from by omega,
      h2, h3, h4,
      show (35:Nat) &&& 2 = 2 from by decide, show (35:Nat) &&& 1 = 1 from by decide,
      show (35:Nat) &&& 8 = 0 from by decide, show (35:Nat) &&& 64 = 0 from by decide,
      show (35:Nat) &&& 128 = 0 from by decide, show (35:Nat) &&& 32 = 32 from by decide,
      hcomp]
    norm_num [iabs, hmax, hmax2]
    rw [compoundGoF, h5]
    simp only [show g + 18 + 2 = g + 20 from by omega, show g + 18 + 4 = g + 22 from by omega,
      show g + 22 + 2 = g + 24 from by omega,
      h6, h7, h8,
      show (3:Nat) &&& 2 = 2 from by decide, show (3:Nat) &&& 1 = 1 from by decide,
      show (3:Nat) &&& 8 = 0 from by decide, show (3:Nat) &&& 64 = 0 from by decide,
      show (3:Nat) &&& 128 = 0 from by decide, show (3:Nat) &&& 32 = 0 from by decide,
      hcomp]
    norm_num [iabs, hmax, hmax2]
    rw [hmap1, hmap2]
  refine ⟨hmain, ?_, ?_⟩
  · rw [hmain]
    simp [okVerts]
    omega
  · intro t ht
    rw [hmain]
    simp only [okVerts]
    rw [getD_append_add, getD_append_lt _ _ _ t ht,
      map_getD_lt noVert noVert _ V t ht]
    exact ⟨rfl, rfl⟩

/-- Witness for `compound_two_components` on the concrete `font6`. -/
theorem compound_two_components_witness :
    getGlyfOffset font6 info6 2 = some 32 ∧
    readInt16 font6 32 = -1 ∧
    getGlyphVerticesF font6 info6 2 1 = .ok vertsTriangle ∧
    getGlyphVerticesF font6 info6 3 2
      = .ok (vertsTriangle ++ vertsTriangle.map
          (fun v => { v with x := v.x + 100, cx := v.cx + 100 })) ∧
    (okVerts (getGlyphVerticesF font6 info6 3 2)).length = 2 * vertsTriangle.length :=
  have h := compound_two_components font6 info6 1 2 1 32 vertsTriangle
    (by decide) (by decide) (by decide) (by decide) (by decide) (by decide)
    (by decide) (by decide) (by decide) (by decide) rfl (by decide)
  ⟨by decide, by decide, rfl, h.1, h.2.1⟩

/-- **C6 counterexample.**  `font6o` is exactly the claim's scenario — a
composite of two identical simple components with identity matrices at
offsets (0,0) and (100,0) — but its component has a vertex at x = 32700, and
the decoder stores coordinates through `int16_t`: the second copy's
x-coordinate wraps to 32800 − 65536 = −32736, which is not the first copy's
x-coordinate plus 100.  The vertex count is still doubled. -/
theorem compound_overflow_wraps :
    getGlyphVerticesF font6o info6o 2 1
      = .ok [{ x := 32700, y := 0, cx := 0, cy := 0, type := 0 },
             { x := 32700, y := 0, cx := 0, cy := 0, type := 1 }] ∧
    getGlyphVerticesF font6o info6o 3 2
      = .ok [{ x := 32700, y := 0, cx := 0, cy := 0, type := 0 },
             { x := 32700, y := 0, cx := 0, cy := 0, type := 1 },
             { x := -32736, y := 0, cx := 100, cy := 0, type := 0 },
             { x := -32736, y := 0, cx := 100, cy := 0, type := 1 }] ∧
    (okVerts (getGlyphVerticesF font6o info6o 3 2)).length
      = 2 * (okVerts (getGlyphVerticesF font6o info6o 2 1)).length ∧
    ¬ ((okVerts (getGlyphVerticesF font6o info6o 3 2)).getD 2 noVert).x
      = ((okVerts (getGlyphVerticesF font6o info6o 3 2)).getD 0 noVert).x + 100 := by
  refine ⟨rfl, rfl, by decide, by decide⟩

end Font
